import Mathlib

/-!
# Batch decoding of integer blocks (`tsdb/engine/tsm1/batch_integer.go`)

A shallow embedding of `IntegerBatchDecodeAll` and its four handlers.

* A byte is a `Fin 256`; a `[]byte` is a `List Byte`.
* A `uint64` is a `Nat` below `2^64`; an `int64` is an `Int` in `[-2^63, 2^63)`,
  and every `int64` addition is followed by `wrap64`.
* A `[]int64` is an `Int64Slice`: the elements below `len`, the elements of the
  backing array between `len` and `cap`, and whether the backing array was
  allocated by the decoder.
* A call either returns the pair `([]int64, error)` or stops with a run-time
  panic; both are values of `Outcome`.
* `int` is 64 bits wide.  `make([]int64, n)` has the length check of the run-time
  function `makeslice`: it panics when `8 * n` bytes exceed `maxAlloc`.  In the
  Run-Length handler `n` comes from the block and the check is modelled; in the
  other handlers `n` is bounded by the length of the input.  An allocation that
  passes the check is taken to succeed: exhaustion of memory is not modelled.
-/

namespace Tsm1

/-- One byte of an encoded block. -/
abbrev Byte := Fin 256

/-- Two's-complement reduction of an integer to the `int64` range. -/
def wrap64 (x : Int) : Int := (x + 2 ^ 63) % 2 ^ 64 - 2 ^ 63

/-- Conversion `int(count)` of a `uint64` to the 64-bit `int`. -/
def toInt (u : Nat) : Int := wrap64 (u : Int)

/-- Go `[]int64`: `elems` are the `len` visible elements, `spare` the rest of the
backing array up to `cap`, `fresh` tells that the decoder allocated the array. -/
structure Int64Slice where
  elems : List Int
  spare : List Int
  fresh : Bool
deriving DecidableEq, Repr

namespace Int64Slice

/-- Go `len(s)`. -/
def len (s : Int64Slice) : Nat := s.elems.length

/-- Go `cap(s)`. -/
def cap (s : Int64Slice) : Nat := s.elems.length + s.spare.length

/-- Go `[]int64{}`. -/
def empty : Int64Slice := ⟨[], [], true⟩

/-- Go `make([]int64, n)`: a new zeroed array of length and capacity `n`. -/
def make (n : Nat) : Int64Slice := ⟨List.replicate n 0, [], true⟩

/-- Go `s[:n]` for `n ≤ cap(s)`: same backing array, length `n`. -/
def reslice (s : Int64Slice) (n : Nat) : Int64Slice :=
  ⟨(s.elems ++ s.spare).take n, (s.elems ++ s.spare).drop n, s.fresh⟩

/-- The slice with its visible elements replaced (writes through `s[i] = v`). -/
def withElems (s : Int64Slice) (es : List Int) : Int64Slice := ⟨es, s.spare, s.fresh⟩

end Int64Slice

/-- What a call of a decoder does: it returns `(dst, err)` (`err = none` is Go's
`nil`), or it stops with a run-time panic. -/
inductive Outcome where
  | ret (dst : Int64Slice) (err : Option String)
  | panic (msg : String)
deriving DecidableEq, Repr

/-- Modelled from the spec: `intCompressedRLE`, the highest valid strategy code
(`const` block of `int.go`, not part of the source at hand); the spec gives 2. -/
def intCompressedRLE : Nat := 2

/-- Modelled from the spec: `ZigZagDecode` (`int.go`, not part of the source at
hand): even words map to `w/2`, odd words map to `-((w+1)/2)`. -/
def ZigZagDecode (w : Nat) : Int :=
  if w % 2 = 0 then ((w / 2 : Nat) : Int) else -(((w + 1) / 2 : Nat) : Int)

/-- Modelled from the spec: `ZigZagEncode` (`int.go`, not part of the source at
hand), `(v << 1) xor (v >> 63)` on the two's-complement bits of `v`: the shift
left drops the top bit, the arithmetic shift right is all ones for a negative `v`
and zero otherwise. -/
def ZigZagEncode (v : Int) : Nat :=
  (((v % 2 ^ 64).toNat <<< 1) % 2 ^ 64) ^^^ (if v < 0 then 2 ^ 64 - 1 else 0)

/-- The word that `binary.BigEndian.Uint64` builds from eight bytes:
`b[7] | b[6]<<8 | ... | b[0]<<56`. -/
def uint64OfBytes (b0 b1 b2 b3 b4 b5 b6 b7 : Byte) : Nat :=
  b7.val ||| b6.val <<< 8 ||| b5.val <<< 16 ||| b4.val <<< 24 |||
    b3.val <<< 32 ||| b2.val <<< 40 ||| b1.val <<< 48 ||| b0.val <<< 56

/-- Go `binary.BigEndian.Uint64(b)`: the first eight bytes of `b`, most
significant first; fewer than eight bytes is an index panic (`none`). -/
def bigEndianUint64 : List Byte → Option Nat
  | b0 :: b1 :: b2 :: b3 :: b4 :: b5 :: b6 :: b7 :: _ => some (uint64OfBytes b0 b1 b2 b3 b4 b5 b6 b7)
  | _ => none

/-- Go `binary.BigEndian.PutUint64`: the eight bytes of `w`, most significant
first. -/
def putUint64 (w : Nat) : List Byte :=
  [Fin.ofNat (w >>> 56), Fin.ofNat (w >>> 48), Fin.ofNat (w >>> 40), Fin.ofNat (w >>> 32),
   Fin.ofNat (w >>> 24), Fin.ofNat (w >>> 16), Fin.ofNat (w >>> 8), Fin.ofNat w]

/-- Go `binary.Uvarint`, the loop `for i, b := range buf` with its state `x`, `s`:
returns `(value, n)`; `n = 0` when the buffer ends before a byte below `0x80`,
`n < 0` on overflow of 64 bits. -/
def uvarintLoop : List Byte → Nat → Nat → Nat → Nat × Int
  | [], _, _, _ => (0, 0)
  | b :: rest, i, x, s =>
    if i = 10 then (0, -((i : Int) + 1))
    else if b.val < 0x80 then
      if i = 9 ∧ b.val > 1 then (0, -((i : Int) + 1))
      else ((x ||| (b.val <<< s)) % 2 ^ 64, (i : Int) + 1)
    else uvarintLoop rest (i + 1) ((x ||| ((b.val &&& 0x7f) <<< s)) % 2 ^ 64) (s + 7)

/-- Go `binary.Uvarint(buf)`. -/
def Uvarint (buf : List Byte) : Nat × Int := uvarintLoop buf 0 0 0

/-- The external bit-packing library `simple8b` (`github.com/jwilder/encoding`,
not part of this repository), taken as a parameter: `countBytes` is
`simple8b.CountBytes`, `decode` is `simple8b.Decode`, which fills a
`[240]uint64` and returns how many values it wrote.  An error is the text of
the library's `error`. -/
structure Unpacker where
  countBytes : List Byte → Except String Nat
  decode : Nat → Except String (List Nat)
  decode_le : ∀ w vs, decode w = Except.ok vs → vs.length ≤ 240

/-- Sizing of the destination, shared by the handlers whose `count` is an `int`:
`if cap(dst) < count { dst = make([]int64, count) } else { dst = dst[:count] }`. -/
def sizeDst (dst : Int64Slice) (count : Nat) : Int64Slice :=
  if dst.cap < count then Int64Slice.make count else dst.reslice count

/-- The loop of the Raw handler, `for i := range dst`, with `n` iterations left:
`prev += ZigZagDecode(binary.BigEndian.Uint64(b[i*8:])); dst[i] = prev`.
`none` is an index panic. -/
def uncompressedLoop (b : List Byte) : Nat → Nat → Int → List Int → Option (List Int)
  | 0, _, _, out => some out
  | n + 1, i, prev, out =>
    if b.length < i * 8 then none
    else
      match bigEndianUint64 (b.drop (i * 8)) with
      | none => none
      | some w =>
        let prev1 := wrap64 (prev + ZigZagDecode w)
        if i < out.length then uncompressedLoop b n (i + 1) prev1 (out.set i prev1)
        else none

/-- Handler `integerBatchDecodeAllUncompressed`; `b0 :: b` is the whole buffer. -/
def integerBatchDecodeAllUncompressed (b : List Byte) (dst : Int64Slice) : Outcome :=
  match b with
  | [] => Outcome.panic "slice bounds out of range"
  | _ :: b =>
    if b.length &&& 0x7 ≠ 0 then
      Outcome.ret Int64Slice.empty (some "IntegerBatchDecodeAll: expected multiple of 8 bytes")
    else
      let count := b.length / 8
      let dst := sizeDst dst count
      match uncompressedLoop b dst.len 0 0 dst.elems with
      | none => Outcome.panic "index out of range"
      | some out => Outcome.ret (dst.withElems out) none

/-- The inner loop of the Packed-Delta handler, `for i := range values[:n]`:
`prev += ZigZagDecode(values[i]); dst[j] = prev; j++`.  `none` is an index
panic. -/
def simpleValues : List Nat → Nat → Int → List Int → Option (Nat × Int × List Int)
  | [], j, prev, out => some (j, prev, out)
  | v :: vs, j, prev, out =>
    let prev1 := wrap64 (prev + ZigZagDecode v)
    if j < out.length then simpleValues vs (j + 1) prev1 (out.set j prev1) else none

/-- The outer loop of the Packed-Delta handler, `for len(b) >= 8`: one word is
read, unpacked and added up, then `b = b[8:]`. -/
def simpleLoop (U : Unpacker) (dst : Int64Slice) :
    List Byte → Nat → Int → List Int → Outcome
  | b0 :: b1 :: b2 :: b3 :: b4 :: b5 :: b6 :: b7 :: rest, j, prev, out =>
    let enc := uint64OfBytes b0 b1 b2 b3 b4 b5 b6 b7
    match U.decode enc with
    | Except.error e =>
      Outcome.ret Int64Slice.empty
        (some ("failed to decode value " ++ toString enc ++ ": " ++ e))
    | Except.ok vs =>
      match simpleValues vs j prev out with
      | none => Outcome.panic "index out of range"
      | some (j1, prev1, out1) => simpleLoop U dst rest j1 prev1 out1
  | _, _, _, out => Outcome.ret (dst.withElems out) none

/-- Handler `integerBatchDecodeAllSimple`. -/
def integerBatchDecodeAllSimple (U : Unpacker) (b : List Byte) (dst : Int64Slice) : Outcome :=
  match b with
  | [] => Outcome.panic "slice bounds out of range"
  | _ :: b =>
    if b.length < 8 then
      Outcome.ret Int64Slice.empty
        (some "IntegerBatchDecodeAll: not enough data to decode packed value")
    else
      match U.countBytes (b.drop 8) with
      | Except.error e => Outcome.ret Int64Slice.empty (some e)
      | Except.ok count =>
        let count := count + 1
        let dst := sizeDst dst count
        match bigEndianUint64 b with
        | none => Outcome.panic "slice bounds out of range"
        | some w =>
          if 0 < dst.len then
            let first := ZigZagDecode w
            simpleLoop U dst (b.drop 8) 1 first (dst.elems.set 0 first)
          else Outcome.panic "index out of range"

/-- The loop of the Run-Length handler for `delta == 0`, with `n` iterations
left: `for i < len(dst) { dst[i] = first; i++ }`. -/
def rleFillLoop (first : Int) : Nat → Nat → List Int → List Int
  | 0, _, out => out
  | n + 1, i, out => rleFillLoop first n (i + 1) (out.set i first)

/-- The loop of the Run-Length handler for `delta != 0`, with `n` iterations
left: `for i < len(dst) { dst[i] = acc; acc += delta; i++ }`. -/
def rleAccLoop (delta : Int) : Nat → Nat → Int → List Int → List Int
  | 0, _, _, out => out
  | n + 1, i, acc, out => rleAccLoop delta n (i + 1) (wrap64 (acc + delta)) (out.set i acc)

/-- The end of the Run-Length handler, the two loops that fill the sized
destination: `if delta == 0 { ... dst[i] = first ... } else { acc := first; ...
dst[i] = acc; acc += delta ... }`. -/
def rleFill (dst : Int64Slice) (first delta : Int) : Int64Slice :=
  if delta = 0 then dst.withElems (rleFillLoop first dst.len 0 dst.elems)
  else dst.withElems (rleAccLoop delta dst.len 0 first dst.elems)

/-- Go run-time constant `maxAlloc`, the largest number of bytes of one
allocation, on a 64-bit platform (`1 << heapAddrBits` with 48 heap address
bits, as on linux/amd64 and linux/arm64). -/
def maxAlloc : Nat := 2 ^ 48

/-- The Run-Length handler from the sizing of the destination on, for the
repeat count `count` (a `uint64`, already incremented):
`if cap(dst) < int(count) { dst = make([]int64, count) } else { dst = dst[:count] }`,
then the fill and `return dst, nil`.  `make([]int64, count)` is the run-time
call `makeslice`, which panics with `len out of range` when the `8 * count`
bytes of the array overflow or exceed `maxAlloc`; `dst[:count]` beyond
`cap(dst)` is a panic. -/
def rleSized (dst : Int64Slice) (first delta : Int) (count : Nat) : Outcome :=
  if (dst.cap : Int) < toInt count then
    if 8 * count ≤ maxAlloc then
      Outcome.ret (rleFill (Int64Slice.make count) first delta) none
    else Outcome.panic "makeslice: len out of range"
  else if count ≤ dst.cap then
    Outcome.ret (rleFill (dst.reslice count) first delta) none
  else Outcome.panic "slice bounds out of range"

/-- Handler `integerBatchDecodeAllRLE`. -/
def integerBatchDecodeAllRLE (b : List Byte) (dst : Int64Slice) : Outcome :=
  match b with
  | [] => Outcome.panic "slice bounds out of range"
  | _ :: b =>
    if b.length < 8 then
      Outcome.ret Int64Slice.empty
        (some "IntegerBatchDecodeAll: not enough data to decode RLE starting value")
    else
      match bigEndianUint64 b with
      | none => Outcome.panic "slice bounds out of range"
      | some w =>
        let first := ZigZagDecode w
        let k := 8
        let (value, n) := Uvarint (b.drop k)
        if n ≤ 0 then
          Outcome.ret Int64Slice.empty (some "IntegerBatchDecodeAll: invalid RLE delta value")
        else
          let k := k + n.toNat
          let delta := ZigZagDecode value
          if b.length < k then Outcome.panic "slice bounds out of range"
          else
            let (count, n) := Uvarint (b.drop k)
            if n ≤ 0 then
              Outcome.ret Int64Slice.empty
                (some "IntegerBatchDecodeAll: invalid RLE repeat value")
            else
              let count := (count + 1) % 2 ^ 64
              rleSized dst first delta count

/-- Handler `integerBatchDecodeAllInvalid`. -/
def integerBatchDecodeAllInvalid (b : List Byte) (_dst : Int64Slice) : Outcome :=
  match b with
  | [] => Outcome.panic "index out of range"
  | b0 :: _ =>
    Outcome.ret Int64Slice.empty (some ("unknown encoding " ++ toString (b0.val >>> 4)))

/-- The dispatch table `integerBatchDecoderFunc`. -/
def integerBatchDecoderFunc (U : Unpacker) : List (List Byte → Int64Slice → Outcome) :=
  [integerBatchDecodeAllUncompressed,
   integerBatchDecodeAllSimple U,
   integerBatchDecodeAllRLE,
   integerBatchDecodeAllInvalid]

/-- The exported entry point `IntegerBatchDecodeAll`. -/
def IntegerBatchDecodeAll (U : Unpacker) (b : List Byte) (dst : Int64Slice) : Outcome :=
  match b with
  | [] => Outcome.ret Int64Slice.empty none
  | b0 :: _ =>
    let encoding := b0.val >>> 4
    let encoding := if encoding > intCompressedRLE then 3 else encoding
    match (integerBatchDecoderFunc U)[encoding &&& 3]? with
    | none => Outcome.panic "index out of range"
    | some f => f b dst

/-! ## Auxiliary definitions used to state the properties -/

/-- The complete 8-byte big-endian words of a payload, in order; a trailing
fragment of fewer than eight bytes is left out. -/
def words : List Byte → List Nat
  | b0 :: b1 :: b2 :: b3 :: b4 :: b5 :: b6 :: b7 :: rest =>
    uint64OfBytes b0 b1 b2 b3 b4 b5 b6 b7 :: words rest
  | _ => []

/-- The big-endian 64-bit word at payload bytes `[8k, 8k+8)` (0 when the payload
is too short to hold it). -/
def wordAt (payload : List Byte) (k : Nat) : Nat :=
  (bigEndianUint64 ((payload.drop (8 * k)).take 8)).getD 0

/-- Running sums of a list of deltas from the accumulator `prev`, every sum
reduced to `int64`. -/
def accumulate (prev : Int) : List Int → List Int
  | [] => []
  | d :: ds => wrap64 (prev + d) :: accumulate (wrap64 (prev + d)) ds

/-- The wrapping differences `seq[i] - seq[i-1]` of a sequence, with `prev` in
the place of `seq[-1]`. -/
def deltas (prev : Int) : List Int → List Int
  | [] => []
  | v :: vs => wrap64 (v - prev) :: deltas v vs

/-- The Raw encoding of a sequence: the byte `0x00`, then for every element the
8-byte big-endian zig-zag encoding of its wrapping difference to the element
before it (to 0 for the first). -/
def encodeRaw (seq : List Int) : List Byte :=
  (0 : Byte) :: ((deltas 0 seq).map (fun d => putUint64 (ZigZagEncode d))).flatten

/-- The property of being a signed 64-bit integer. -/
def IsInt64 (v : Int) : Prop := -2 ^ 63 ≤ v ∧ v < 2 ^ 63

instance (v : Int) : Decidable (IsInt64 v) := by unfold IsInt64; infer_instance

/-- An unpacker for the examples: every word holds one value, its low 60 bits;
the counting pass counts the complete words and accepts a trailing fragment. -/
def lenientUnpacker : Unpacker where
  countBytes := fun b => Except.ok (b.length / 8)
  decode := fun w => Except.ok [w % 2 ^ 60]
  decode_le := by intro w vs h; cases h; simp

/-- An unpacker for the examples: every word holds one value, its low 60 bits;
the counting pass rejects a buffer that does not end on a word boundary. -/
def strictUnpacker : Unpacker where
  countBytes := fun b =>
    if b.length % 8 = 0 then Except.ok (b.length / 8)
    else Except.error ("invalid slice len remaining: " ++ toString (b.length % 8))
  decode := fun w => Except.ok [w % 2 ^ 60]
  decode_le := by intro w vs h; cases h; simp

/-- A Run-Length payload: first value 0, delta 0, count field `2^64 - 1` (the
ten-byte varint `ff ff ff ff ff ff ff ff ff 01`). -/
def rlePayloadMaxCount : List Byte :=
  putUint64 0 ++ [0, 0xff, 0xff, 0xff, 0xff, 0xff, 0xff, 0xff, 0xff, 0xff, 0x01]

/-- A Run-Length payload: first value 0, delta 0, count field `2^63 - 1` (the
nine-byte varint `ff ff ff ff ff ff ff ff 7f`). -/
def rlePayloadIntOverflow : List Byte :=
  putUint64 0 ++ [0, 0xff, 0xff, 0xff, 0xff, 0xff, 0xff, 0xff, 0xff, 0x7f]

/-- A Run-Length payload: first value 0, delta 0, count field `2^62` (the
nine-byte varint `80 80 80 80 80 80 80 80 40`). -/
def rlePayloadMakeOverflow : List Byte :=
  putUint64 0 ++ [0, 0x80, 0x80, 0x80, 0x80, 0x80, 0x80, 0x80, 0x80, 0x40]

/-- The outer loop of the Packed-Delta handler over the complete words of the
buffer instead of its bytes. -/
def simpleWords (U : Unpacker) (dst : Int64Slice) :
    List Nat → Nat → Int → List Int → Outcome
  | [], _, _, out => Outcome.ret (dst.withElems out) none
  | enc :: ws, j, prev, out =>
    match U.decode enc with
    | Except.error e =>
      Outcome.ret Int64Slice.empty
        (some ("failed to decode value " ++ toString enc ++ ": " ++ e))
    | Except.ok vs =>
      match simpleValues vs j prev out with
      | none => Outcome.panic "index out of range"
      | some (j1, prev1, out1) => simpleWords U dst ws j1 prev1 out1

/-- The accumulator after a list of deltas was added to `prev`. -/
def accumulated (prev : Int) (ds : List Int) : Int :=
  ds.foldl (fun a d => wrap64 (a + d)) prev

/-- The text of the error of the Invalid handler, for some nibble. -/
def IsUnknownEncoding (msg : String) : Prop :=
  ∃ n : Nat, msg = "unknown encoding " ++ toString n

/-- An unpacker for the examples: the word 0 is not validly packed, every other
word holds one value, its low 60 bits; the counting pass counts the complete
words. -/
def rejectingUnpacker : Unpacker where
  countBytes := fun b => Except.ok (b.length / 8)
  decode := fun w => if w = 0 then Except.error "invalid word" else Except.ok [w % 2 ^ 60]
  decode_le := by
    intro w vs h
    by_cases hw : w = 0
    · simp [hw] at h
    · simp only [if_neg hw, Except.ok.injEq] at h
      subst h
      simp

/-- A buffer that starts with a well-formed unsigned varint, in the words of the
format: after `k ≤ 9` bytes with the top bit set comes a byte with a clear top
bit, and a tenth byte, if it is reached, is 0 or 1 (no overflow of 64 bits). -/
def StartsWithUvarint (buf : List Byte) : Prop :=
  ∃ (k : Nat) (t : Byte), k ≤ 9 ∧ (∀ b ∈ buf.take k, 0x80 ≤ b.val) ∧ buf[k]? = some t ∧
    t.val < 0x80 ∧ (k = 9 → t.val ≤ 1)

/-- Go `binary.PutUvarint`, the loop `for x >= 0x80 { buf[i] = byte(x) | 0x80;
x >>= 7; i++ }` followed by `buf[i] = byte(x)`, with `fuel` iterations left. -/
def putUvarintLoop : Nat → Nat → List Byte
  | 0, x => [Fin.ofNat x]
  | fuel + 1, x =>
    if x ≥ 0x80 then Fin.ofNat ((x % 256) ||| 0x80) :: putUvarintLoop fuel (x >>> 7)
    else [Fin.ofNat x]

/-- Go `binary.PutUvarint` of a `uint64`: its loop runs at most 9 times, since
`x >> 63` is below `0x80`. -/
def putUvarint (x : Nat) : List Byte := putUvarintLoop 9 x

/-- The Run-Length encoding of the `n` values `f, f+d, f+2d, ...`: the byte
`0x20`, the big-endian zig-zag encoding of `f`, the varint of the zig-zag
encoding of `d`, the varint of `n - 1`. -/
def encodeRLE (f d : Int) (n : Nat) : List Byte :=
  (0x20 : Byte) ::
    (putUint64 (ZigZagEncode f) ++ putUvarint (ZigZagEncode d) ++ putUvarint (n - 1))

/-- What the caller observes of a call that returns: the returned sequence and
the error; `none` for a panic. -/
def Outcome.result : Outcome → Option (List Int × Option String)
  | Outcome.ret dst err => some (dst.elems, err)
  | Outcome.panic _ => none

/-- The contract between the two operations of the unpacker, as the spec gives
it for the external capability (`count` returns the total element count across
the 8-byte words): the counting pass over a buffer returns the number of values
that decoding its words yields. -/
def Unpacker.Coherent (U : Unpacker) : Prop :=
  ∀ (bs : List Byte) (n : Nat) (us : List (List Nat)),
    U.countBytes bs = Except.ok n → (words bs).map U.decode = us.map Except.ok →
    n = us.flatten.length

/-- The course of the second pass of the Packed-Delta handler over the words
`ws` with `room` slots left in the destination: the values it writes, or the
error of the first word that is not validly packed, or `none` when a write
falls outside the destination. -/
def simpleRun (U : Unpacker) : List Nat → Nat → Option (Except String (List Nat))
  | [], _ => some (Except.ok [])
  | enc :: ws, room =>
    match U.decode enc with
    | Except.error e =>
      some (Except.error ("failed to decode value " ++ toString enc ++ ": " ++ e))
    | Except.ok vs =>
      if vs.length ≤ room then
        match simpleRun U ws (room - vs.length) with
        | some (Except.ok vals) => some (Except.ok (vs ++ vals))
        | other => other
      else none

/-! ## Lemmas -/

theorem or_shiftLeft_of_lt (acc b k : Nat) (h : acc < 2 ^ k) :
    acc ||| b <<< k = acc + b * 2 ^ k := by
  rw [Nat.shiftLeft_eq, Nat.lor_comm, Nat.mul_comm b, ← Nat.mul_add_lt_is_or h, Nat.add_comm]

theorem uint64OfBytes_eq (b0 b1 b2 b3 b4 b5 b6 b7 : Byte) :
    uint64OfBytes b0 b1 b2 b3 b4 b5 b6 b7 =
      b7.val + b6.val * 2 ^ 8 + b5.val * 2 ^ 16 + b4.val * 2 ^ 24 + b3.val * 2 ^ 32 +
        b2.val * 2 ^ 40 + b1.val * 2 ^ 48 + b0.val * 2 ^ 56 := by
  have h0 := b0.isLt; have h1 := b1.isLt; have h2 := b2.isLt; have h3 := b3.isLt
  have h4 := b4.isLt; have h5 := b5.isLt; have h6 := b6.isLt; have h7 := b7.isLt
  unfold uint64OfBytes
  rw [or_shiftLeft_of_lt _ _ 8 (by omega), or_shiftLeft_of_lt _ _ 16 (by omega),
    or_shiftLeft_of_lt _ _ 24 (by omega), or_shiftLeft_of_lt _ _ 32 (by omega),
    or_shiftLeft_of_lt _ _ 40 (by omega), or_shiftLeft_of_lt _ _ 48 (by omega),
    or_shiftLeft_of_lt _ _ 56 (by omega)]

theorem uint64OfBytes_lt (b0 b1 b2 b3 b4 b5 b6 b7 : Byte) :
    uint64OfBytes b0 b1 b2 b3 b4 b5 b6 b7 < 2 ^ 64 := by
  have h0 := b0.isLt; have h1 := b1.isLt; have h2 := b2.isLt; have h3 := b3.isLt
  have h4 := b4.isLt; have h5 := b5.isLt; have h6 := b6.isLt; have h7 := b7.isLt
  rw [uint64OfBytes_eq]; omega

theorem bigEndianUint64_putUint64 (w : Nat) (hw : w < 2 ^ 64) (rest : List Byte) :
    bigEndianUint64 (putUint64 w ++ rest) = some w := by
  simp only [putUint64, List.cons_append, List.nil_append, bigEndianUint64, uint64OfBytes_eq,
    Option.some.injEq, Fin.ofNat, Nat.shiftRight_eq_div_pow]
  omega

theorem xor_allOnes (x : Nat) (h : x < 2 ^ 64) : x ^^^ (2 ^ 64 - 1) = 2 ^ 64 - 1 - x := by
  apply Nat.eq_of_testBit_eq
  intro i
  have e : 2 ^ 64 - 1 - x = 2 ^ 64 - (x + 1) := by omega
  rw [e, Nat.testBit_two_pow_sub_succ h, Nat.testBit_xor, Nat.testBit_two_pow_sub_one]
  by_cases hi : i < 64
  · simp [hi]
  · have : x.testBit i = false := by
      apply Nat.testBit_lt_two_pow
      calc x < 2 ^ 64 := h
        _ ≤ 2 ^ i := Nat.pow_le_pow_right (by decide) (by omega)
    simp [hi, this]

theorem ZigZagEncode_nonneg (v : Int) (h0 : 0 ≤ v) (h1 : v < 2 ^ 63) :
    ZigZagEncode v = (2 * v).toNat := by
  unfold ZigZagEncode
  have hv : ¬ v < 0 := by omega
  rw [if_neg hv, Nat.xor_zero, Nat.shiftLeft_eq]
  omega

theorem ZigZagEncode_neg (v : Int) (h0 : v < 0) (h1 : -2 ^ 63 ≤ v) :
    ZigZagEncode v = (-2 * v - 1).toNat := by
  unfold ZigZagEncode
  rw [if_pos h0, Nat.shiftLeft_eq, xor_allOnes _ (Nat.mod_lt _ (by decide))]
  omega

theorem ZigZagEncode_lt (v : Int) (h0 : -2 ^ 63 ≤ v) (h1 : v < 2 ^ 63) :
    ZigZagEncode v < 2 ^ 64 := by
  by_cases h : v < 0
  · rw [ZigZagEncode_neg v h h0]; omega
  · rw [ZigZagEncode_nonneg v (by omega) h1]; omega

theorem ZigZagDecode_ZigZagEncode (v : Int) (h0 : -2 ^ 63 ≤ v) (h1 : v < 2 ^ 63) :
    ZigZagDecode (ZigZagEncode v) = v := by
  by_cases h : v < 0
  · rw [ZigZagEncode_neg v h h0]; unfold ZigZagDecode
    split <;> omega
  · rw [ZigZagEncode_nonneg v (by omega) h1]; unfold ZigZagDecode
    split <;> omega

theorem ZigZagDecode_range (w : Nat) (h : w < 2 ^ 64) :
    -2 ^ 63 ≤ ZigZagDecode w ∧ ZigZagDecode w < 2 ^ 63 := by
  unfold ZigZagDecode; split <;> omega

theorem wrap64_range (x : Int) : -2 ^ 63 ≤ wrap64 x ∧ wrap64 x < 2 ^ 63 := by
  unfold wrap64; omega

theorem wrap64_of_range (x : Int) (h0 : -2 ^ 63 ≤ x) (h1 : x < 2 ^ 63) : wrap64 x = x := by
  unfold wrap64; omega

theorem wrap64_add_wrap64 (a b : Int) : wrap64 (a + wrap64 b) = wrap64 (a + b) := by
  unfold wrap64; omega

theorem wrap64_wrap64_add (a b : Int) : wrap64 (wrap64 a + b) = wrap64 (a + b) := by
  unfold wrap64; omega

theorem length_lt_eight_of_not_cons (t : List Byte)
    (h : ∀ (b0 b1 b2 b3 b4 b5 b6 b7 : Byte) (rest : List Byte),
      t = b0 :: b1 :: b2 :: b3 :: b4 :: b5 :: b6 :: b7 :: rest → False) : t.length < 8 := by
  match t, h with
  | [], _ => simp
  | [_], _ => simp
  | [_, _], _ => simp
  | [_, _, _], _ => simp
  | [_, _, _, _], _ => simp
  | [_, _, _, _, _], _ => simp
  | [_, _, _, _, _, _], _ => simp
  | [_, _, _, _, _, _, _], _ => simp
  | b0 :: b1 :: b2 :: b3 :: b4 :: b5 :: b6 :: b7 :: rest, h =>
    exact absurd rfl (h b0 b1 b2 b3 b4 b5 b6 b7 rest)

theorem words_of_short (b : List Byte) (h : b.length < 8) : words b = [] := by
  rw [words]
  intro b0 b1 b2 b3 b4 b5 b6 b7 rest e
  subst e
  simp only [List.length_cons] at h
  omega

theorem words_length (b : List Byte) : (words b).length = b.length / 8 := by
  induction b using words.induct with
  | case1 b0 b1 b2 b3 b4 b5 b6 b7 rest ih =>
    simp only [words, List.length_cons, ih]; omega
  | case2 b h =>
    have hl := length_lt_eight_of_not_cons b h
    rw [words_of_short b hl]
    simp; omega

theorem bigEndianUint64_drop (b : List Byte) (i w : Nat) (h : (words b)[i]? = some w) :
    bigEndianUint64 (b.drop (i * 8)) = some w := by
  induction b using words.induct generalizing i with
  | case1 b0 b1 b2 b3 b4 b5 b6 b7 rest ih =>
    cases i with
    | zero =>
      simp only [words, List.getElem?_cons_zero, Option.some.injEq] at h
      simp [bigEndianUint64, h]
    | succ i =>
      simp only [words, List.getElem?_cons_succ] at h
      have e : (i + 1) * 8 = i * 8 + 8 := by omega
      rw [e]
      simpa using ih i h
  | case2 b hb =>
    rw [words_of_short b (length_lt_eight_of_not_cons b hb)] at h
    simp at h

theorem take_set_self {α : Type} (l : List α) (i : Nat) (a : α) :
    (l.set i a).take i = l.take i := by
  rw [List.set_take, List.set_eq_of_length_le]
  simp [List.length_take]

theorem uncompressedLoop_eq (b : List Byte) (n : Nat) :
    ∀ (i : Nat) (prev : Int) (out : List Int),
      (words b).length = i + n → out.length = i + n →
      uncompressedLoop b n i prev out =
        some (out.take i ++ accumulate prev (((words b).drop i).map ZigZagDecode)) := by
  induction n with
  | zero =>
    intro i prev out hw ho
    simp only [Nat.add_zero] at hw ho
    rw [uncompressedLoop, List.take_of_length_le (by omega), List.drop_of_length_le (by omega)]
    simp [accumulate]
  | succ n ih =>
    intro i prev out hw ho
    have hi : i < (words b).length := by omega
    have hlen : ¬ b.length < i * 8 := by
      have := words_length b
      omega
    have hget : (words b)[i]? = some ((words b)[i]) := List.getElem?_eq_getElem hi
    have hbe := bigEndianUint64_drop b i _ hget
    have hio : i < out.length := by omega
    rw [uncompressedLoop, if_neg hlen, hbe]
    simp only [if_pos hio]
    rw [ih (i + 1) _ _ (by omega) (by simp; omega)]
    congr 1
    rw [List.drop_eq_getElem_cons hi]
    simp only [List.map_cons, accumulate]
    rw [List.take_succ]
    simp [hio, take_set_self]

theorem dispatch_uncompressed (U : Unpacker) (h : Byte) (p : List Byte) (dst : Int64Slice)
    (hn : h.val >>> 4 = 0) :
    IntegerBatchDecodeAll U (h :: p) dst = integerBatchDecodeAllUncompressed (h :: p) dst := by
  simp [IntegerBatchDecodeAll, hn, intCompressedRLE, integerBatchDecoderFunc]

theorem dispatch_simple (U : Unpacker) (h : Byte) (p : List Byte) (dst : Int64Slice)
    (hn : h.val >>> 4 = 1) :
    IntegerBatchDecodeAll U (h :: p) dst = integerBatchDecodeAllSimple U (h :: p) dst := by
  simp [IntegerBatchDecodeAll, hn, intCompressedRLE, integerBatchDecoderFunc]

theorem dispatch_rle (U : Unpacker) (h : Byte) (p : List Byte) (dst : Int64Slice)
    (hn : h.val >>> 4 = 2) :
    IntegerBatchDecodeAll U (h :: p) dst = integerBatchDecodeAllRLE (h :: p) dst := by
  have e : 2 &&& 3 = 2 := by decide
  simp [IntegerBatchDecodeAll, hn, intCompressedRLE, integerBatchDecoderFunc, e]

theorem dispatch_invalid (U : Unpacker) (h : Byte) (p : List Byte) (dst : Int64Slice)
    (hn : 3 ≤ h.val >>> 4) :
    IntegerBatchDecodeAll U (h :: p) dst = integerBatchDecodeAllInvalid (h :: p) dst := by
  have h2 : h.val >>> 4 > intCompressedRLE := by unfold intCompressedRLE; omega
  simp [IntegerBatchDecodeAll, h2, integerBatchDecoderFunc]

theorem sizeDst_len (dst : Int64Slice) (count : Nat) : (sizeDst dst count).len = count := by
  unfold sizeDst
  split
  · simp [Int64Slice.make, Int64Slice.len]
  · rename_i h
    simp only [Int64Slice.cap] at h
    simp [Int64Slice.reslice, Int64Slice.len]
    omega

theorem uncompressed_eq (h : Byte) (p : List Byte) (dst : Int64Slice) :
    integerBatchDecodeAllUncompressed (h :: p) dst =
      if p.length % 8 ≠ 0 then
        Outcome.ret Int64Slice.empty (some "IntegerBatchDecodeAll: expected multiple of 8 bytes")
      else
        Outcome.ret ((sizeDst dst (p.length / 8)).withElems
          (accumulate 0 ((words p).map ZigZagDecode))) none := by
  have hand : p.length &&& 0x7 = p.length % 8 := Nat.and_pow_two_sub_one_eq_mod p.length 3
  unfold integerBatchDecodeAllUncompressed
  simp only [hand]
  split
  · rfl
  · have hl := sizeDst_len dst (p.length / 8)
    have hl2 : (sizeDst dst (p.length / 8)).elems.length = p.length / 8 := hl
    rw [hl, uncompressedLoop_eq p (p.length / 8) 0 0 _ (by rw [words_length]; omega) (by omega)]
    simp

theorem uint64OfBytes_putUint64 (w : Nat) (hw : w < 2 ^ 64) :
    uint64OfBytes (Fin.ofNat (w >>> 56)) (Fin.ofNat (w >>> 48)) (Fin.ofNat (w >>> 40))
      (Fin.ofNat (w >>> 32)) (Fin.ofNat (w >>> 24)) (Fin.ofNat (w >>> 16))
      (Fin.ofNat (w >>> 8)) (Fin.ofNat w) = w := by
  simp only [uint64OfBytes_eq, Fin.ofNat, Nat.shiftRight_eq_div_pow]
  omega

theorem words_putUint64_append (w : Nat) (hw : w < 2 ^ 64) (rest : List Byte) :
    words (putUint64 w ++ rest) = w :: words rest := by
  simp only [putUint64, List.cons_append, List.nil_append, words, uint64OfBytes_putUint64 w hw]
  rfl

theorem words_flatten_putUint64 (ws : List Nat) (hws : ∀ w ∈ ws, w < 2 ^ 64) :
    words (ws.map putUint64).flatten = ws := by
  induction ws with
  | nil => simp [words]
  | cons w ws ih =>
    simp only [List.map_cons, List.flatten_cons]
    rw [words_putUint64_append w (hws w (List.mem_cons_self _ _)),
      ih (fun x hx => hws x (List.mem_cons_of_mem _ hx))]

theorem length_flatten_putUint64 (ws : List Nat) :
    (ws.map putUint64).flatten.length = 8 * ws.length := by
  induction ws with
  | nil => simp
  | cons w ws ih =>
    simp only [List.map_cons, List.flatten_cons, List.length_append, ih, List.length_cons]
    simp [putUint64]; omega

theorem deltas_length (seq : List Int) : ∀ prev, (deltas prev seq).length = seq.length := by
  induction seq with
  | nil => intro prev; rfl
  | cons v vs ih => intro prev; simp [deltas, ih]

theorem deltas_isInt64 (seq : List Int) : ∀ prev, ∀ d ∈ deltas prev seq, IsInt64 d := by
  induction seq with
  | nil => intro prev d hd; simp [deltas] at hd
  | cons v vs ih =>
    intro prev d hd
    simp only [deltas, List.mem_cons] at hd
    rcases hd with rfl | hd
    · exact wrap64_range _
    · exact ih v d hd

theorem accumulate_deltas (seq : List Int) : ∀ prev, (∀ v ∈ seq, IsInt64 v) →
    accumulate prev (deltas prev seq) = seq := by
  induction seq with
  | nil => intro prev _; rfl
  | cons v vs ih =>
    intro prev hs
    have hv : IsInt64 v := hs v (List.mem_cons_self _ _)
    have e : wrap64 (prev + wrap64 (v - prev)) = v := by
      rw [wrap64_add_wrap64]
      have : prev + (v - prev) = v := by omega
      rw [this]
      exact wrap64_of_range v hv.1 hv.2
    simp only [deltas, accumulate, e]
    rw [ih v (fun x hx => hs x (List.mem_cons_of_mem _ hx))]

theorem accumulate_length (ds : List Int) : ∀ prev, (accumulate prev ds).length = ds.length := by
  induction ds with
  | nil => intro prev; rfl
  | cons d ds ih => intro prev; simp [accumulate, ih]

theorem accumulate_getElem? (ds : List Int) : ∀ (prev : Int) (i : Nat), i < ds.length →
    (accumulate prev ds)[i]? = some (wrap64 (prev + (ds.take (i + 1)).sum)) := by
  induction ds with
  | nil => intro prev i hi; simp at hi
  | cons d ds ih =>
    intro prev i hi
    cases i with
    | zero => simp [accumulate]
    | succ i =>
      simp only [List.length_cons] at hi
      simp only [accumulate, List.getElem?_cons_succ, List.take_succ_cons, List.sum_cons]
      rw [ih _ i (by omega), wrap64_wrap64_add, Int.add_assoc]

theorem bigEndianUint64_take (l : List Byte) :
    bigEndianUint64 (l.take 8) = bigEndianUint64 l := by
  match l with
  | [] => rfl
  | [_] => rfl
  | [_, _] => rfl
  | [_, _, _] => rfl
  | [_, _, _, _] => rfl
  | [_, _, _, _, _] => rfl
  | [_, _, _, _, _, _] => rfl
  | [_, _, _, _, _, _, _] => rfl
  | _ :: _ :: _ :: _ :: _ :: _ :: _ :: _ :: _ => rfl

theorem words_getElem?_eq_wordAt (p : List Byte) (k : Nat) (hk : k < (words p).length) :
    (words p)[k]? = some (wordAt p k) := by
  have hget : (words p)[k]? = some ((words p)[k]) := List.getElem?_eq_getElem hk
  have h := bigEndianUint64_drop p k _ hget
  rw [hget]
  unfold wordAt
  rw [bigEndianUint64_take, Nat.mul_comm, h]
  rfl

theorem sum_take_map_words (p : List Byte) (i : Nat) (hi : i ≤ (words p).length) :
    (((words p).map ZigZagDecode).take i).sum =
      ∑ k in Finset.range i, ZigZagDecode (wordAt p k) := by
  induction i with
  | zero => simp
  | succ i ih =>
    have hlt : i < (words p).length := by omega
    have hw := words_getElem?_eq_wordAt p i hlt
    rw [List.take_succ, List.sum_append, ih (by omega), Finset.sum_range_succ]
    simp [hw]

theorem uvarintLoop_le (buf : List Byte) : ∀ (i x s : Nat),
    (uvarintLoop buf i x s).2 ≤ (i : Int) + buf.length := by
  induction buf with
  | nil => intro i x s; simp [uvarintLoop]
  | cons b rest ih =>
    intro i x s
    rw [uvarintLoop]
    split
    · simp only [List.length_cons]; omega
    · split
      · split
        · simp only [List.length_cons]; omega
        · simp only [List.length_cons]; omega
      · have := ih (i + 1) ((x ||| ((b.val &&& 0x7f) <<< s)) % 2 ^ 64) (s + 7)
        simp only [List.length_cons]
        push_cast at this ⊢
        omega

theorem Uvarint_le (buf : List Byte) : (Uvarint buf).2 ≤ buf.length := by
  have := uvarintLoop_le buf 0 0 0
  simpa [Uvarint] using this

theorem uvarintLoop_fst_lt (buf : List Byte) : ∀ (i x s : Nat),
    (uvarintLoop buf i x s).1 < 2 ^ 64 := by
  induction buf with
  | nil => intro i x s; simp [uvarintLoop]
  | cons b rest ih =>
    intro i x s
    rw [uvarintLoop]
    split
    · simp
    · split
      · split
        · simp
        · exact Nat.mod_lt _ (by decide)
      · exact ih _ _ _

theorem Uvarint_fst_lt (buf : List Byte) : (Uvarint buf).1 < 2 ^ 64 :=
  uvarintLoop_fst_lt buf 0 0 0

theorem bigEndianUint64_of_le (p : List Byte) (h8 : 8 ≤ p.length) :
    bigEndianUint64 p = some (wordAt p 0) := by
  have hw : 0 < (words p).length := by rw [words_length]; omega
  have h1 := words_getElem?_eq_wordAt p 0 hw
  have h2 := bigEndianUint64_drop p 0 _ h1
  simpa using h2

theorem wordAt_lt (p : List Byte) (k : Nat) : wordAt p k < 2 ^ 64 := by
  unfold wordAt
  match (List.take 8 (List.drop (8 * k) p)) with
  | [] => simp [bigEndianUint64]
  | [_] => simp [bigEndianUint64]
  | [_, _] => simp [bigEndianUint64]
  | [_, _, _] => simp [bigEndianUint64]
  | [_, _, _, _] => simp [bigEndianUint64]
  | [_, _, _, _, _] => simp [bigEndianUint64]
  | [_, _, _, _, _, _] => simp [bigEndianUint64]
  | [_, _, _, _, _, _, _] => simp [bigEndianUint64]
  | b0 :: b1 :: b2 :: b3 :: b4 :: b5 :: b6 :: b7 :: _ =>
    simpa [bigEndianUint64] using uint64OfBytes_lt b0 b1 b2 b3 b4 b5 b6 b7

theorem rleFillLoop_eq (first : Int) (n : Nat) : ∀ (i : Nat) (out : List Int),
    out.length = i + n →
    rleFillLoop first n i out = out.take i ++ List.replicate n first := by
  induction n with
  | zero =>
    intro i out ho
    rw [rleFillLoop, List.take_of_length_le (by omega)]
    simp
  | succ n ih =>
    intro i out ho
    have hio : i < out.length := by omega
    rw [rleFillLoop, ih (i + 1) _ (by simp; omega), List.take_succ]
    simp [hio, take_set_self, List.replicate_succ]

theorem rleAccLoop_eq (delta : Int) (n : Nat) : ∀ (i : Nat) (acc : Int) (out : List Int),
    out.length = i + n → IsInt64 acc →
    rleAccLoop delta n i acc out =
      out.take i ++ (List.range n).map (fun k : Nat => wrap64 (acc + (k : Int) * delta)) := by
  induction n with
  | zero =>
    intro i acc out ho _
    rw [rleAccLoop, List.take_of_length_le (by omega)]
    simp
  | succ n ih =>
    intro i acc out ho hacc
    have hio : i < out.length := by omega
    rw [rleAccLoop, ih (i + 1) _ _ (by simp; omega) (wrap64_range _), List.take_succ,
      List.range_succ_eq_map]
    simp only [List.map_cons, List.map_map]
    have e0 : wrap64 (acc + ((0 : Nat) : Int) * delta) = acc := by
      have z : acc + ((0 : Nat) : Int) * delta = acc := by simp
      rw [z]
      exact wrap64_of_range acc hacc.1 hacc.2
    rw [e0]
    have e1 : ((fun k : Nat => wrap64 (wrap64 (acc + delta) + (k : Int) * delta)) =
        (fun k : Nat => wrap64 (acc + (k : Int) * delta)) ∘ Nat.succ) := by
      funext k
      simp only [Function.comp, wrap64_wrap64_add, Nat.succ_eq_add_one, Nat.cast_add, Nat.cast_one]
      congr 1
      rw [Int.add_mul]; omega
    rw [e1]
    simp [hio, take_set_self]

/-- The fill of a sized destination in closed form. -/
theorem rleFill_elems (dst : Int64Slice) (first delta : Int) (hf : IsInt64 first) :
    (rleFill dst first delta).elems =
      (List.range dst.len).map (fun k : Nat => wrap64 (first + (k : Int) * delta)) := by
  unfold rleFill
  by_cases hd : delta = 0
  · rw [if_pos hd, hd]
    simp only [Int64Slice.withElems]
    rw [rleFillLoop_eq _ _ 0 _ (by simp [Int64Slice.len])]
    simp only [List.take_zero, List.nil_append, Int.mul_zero, Int.add_zero,
      wrap64_of_range _ hf.1 hf.2]
    simp
  · rw [if_neg hd]
    simp only [Int64Slice.withElems]
    rw [rleAccLoop_eq _ _ 0 _ _ (by simp [Int64Slice.len]) hf]
    simp

theorem rleFill_length (dst : Int64Slice) (first delta : Int) (hf : IsInt64 first) :
    (rleFill dst first delta).elems.length = dst.len := by
  rw [rleFill_elems dst first delta hf]
  simp

/-- The Run-Length handler up to the sizing of the destination, for a payload of
at least 8 bytes. -/
theorem rle_eq (h : Byte) (p : List Byte) (dst : Int64Slice) (h8 : 8 ≤ p.length) :
    integerBatchDecodeAllRLE (h :: p) dst =
      if (Uvarint (p.drop 8)).2 ≤ 0 then
        Outcome.ret Int64Slice.empty (some "IntegerBatchDecodeAll: invalid RLE delta value")
      else if (Uvarint (p.drop (8 + (Uvarint (p.drop 8)).2.toNat))).2 ≤ 0 then
        Outcome.ret Int64Slice.empty (some "IntegerBatchDecodeAll: invalid RLE repeat value")
      else
        rleSized dst (ZigZagDecode (wordAt p 0)) (ZigZagDecode (Uvarint (p.drop 8)).1)
          (((Uvarint (p.drop (8 + (Uvarint (p.drop 8)).2.toNat))).1 + 1) % 2 ^ 64) := by
  have hlt : ¬ p.length < 8 := by omega
  unfold integerBatchDecodeAllRLE
  dsimp only
  rw [if_neg hlt, bigEndianUint64_of_le p h8]
  dsimp only
  by_cases hn : (Uvarint (p.drop 8)).2 ≤ 0
  · rw [if_pos hn, if_pos hn]
  · rw [if_neg hn, if_neg hn]
    have hnle := Uvarint_le (p.drop 8)
    have hk : ¬ p.length < 8 + (Uvarint (p.drop 8)).2.toNat := by
      simp only [List.length_drop] at hnle
      omega
    rw [if_neg hk]

theorem rle_short (h : Byte) (p : List Byte) (dst : Int64Slice) (h8 : p.length < 8) :
    integerBatchDecodeAllRLE (h :: p) dst = Outcome.ret Int64Slice.empty
      (some "IntegerBatchDecodeAll: not enough data to decode RLE starting value") := by
  unfold integerBatchDecodeAllRLE
  dsimp only
  rw [if_pos h8]

theorem make_len (n : Nat) : (Int64Slice.make n).len = n := by
  simp [Int64Slice.make, Int64Slice.len]

theorem reslice_len (dst : Int64Slice) (n : Nat) (h : n ≤ dst.cap) :
    (dst.reslice n).len = n := by
  simp only [Int64Slice.cap] at h
  simp [Int64Slice.reslice, Int64Slice.len]
  omega

/-- A return of the sized Run-Length stage carries no error, and its elements
are the arithmetic progression of length `count`. -/
theorem rleSized_ret (dst s : Int64Slice) (first delta : Int) (count : Nat) (e : Option String)
    (hf : IsInt64 first) (h : rleSized dst first delta count = Outcome.ret s e) :
    e = none ∧ s.elems =
      (List.range count).map (fun k : Nat => wrap64 (first + (k : Int) * delta)) := by
  unfold rleSized at h
  split at h
  · split at h
    · injection h with h1 h2
      subst h1
      rw [rleFill_elems _ _ _ hf, make_len]
      exact ⟨h2.symm, rfl⟩
    · cases h
  · split at h
    · rename_i hc
      injection h with h1 h2
      subst h1
      rw [rleFill_elems _ _ _ hf, reslice_len _ _ hc]
      exact ⟨h2.symm, rfl⟩
    · cases h

/-- For a repeat count that fits an `int` and that the destination holds or
`make` accepts, the sized Run-Length stage returns. -/
theorem rleSized_of_fits (dst : Int64Slice) (first delta : Int) (count : Nat)
    (hc : count < 2 ^ 63) (hfit : count ≤ dst.cap ∨ 8 * count ≤ maxAlloc) :
    ∃ s, rleSized dst first delta count = Outcome.ret s none := by
  have e : toInt count = count := wrap64_of_range _ (by omega) (by omega)
  unfold rleSized
  rw [e]
  by_cases h1 : (dst.cap : Int) < (count : Int)
  · have h2 : 8 * count ≤ maxAlloc := by
      rcases hfit with h | h
      · omega
      · exact h
    rw [if_pos h1, if_pos h2]; exact ⟨_, rfl⟩
  · rw [if_neg h1, if_pos (by omega)]; exact ⟨_, rfl⟩

theorem getElem?_map_range (f : Nat → Int) (n i : Nat) (hi : i < n) :
    ((List.range n).map f)[i]? = some (f i) := by
  simp [List.getElem?_map, List.getElem?_range hi]

theorem isInt64_first (p : List Byte) : IsInt64 (ZigZagDecode (wordAt p 0)) :=
  ZigZagDecode_range (wordAt p 0) (wordAt_lt p 0)

/-- A successful Run-Length decode in closed form: its elements are the
arithmetic progression from the first value with the decoded delta, as long as
the incremented count field. -/
theorem rle_ret (h : Byte) (p : List Byte) (dst s : Int64Slice)
    (hs : integerBatchDecodeAllRLE (h :: p) dst = Outcome.ret s none) :
    8 ≤ p.length ∧ 0 < (Uvarint (p.drop 8)).2 ∧
      0 < (Uvarint (p.drop (8 + (Uvarint (p.drop 8)).2.toNat))).2 ∧
      s.elems = (List.range
          (((Uvarint (p.drop (8 + (Uvarint (p.drop 8)).2.toNat))).1 + 1) % 2 ^ 64)).map
        (fun k : Nat => wrap64 (ZigZagDecode (wordAt p 0) +
          (k : Int) * ZigZagDecode (Uvarint (p.drop 8)).1)) := by
  by_cases h8 : p.length < 8
  · rw [rle_short h p dst h8] at hs
    cases hs
  · rw [rle_eq h p dst (by omega)] at hs
    split at hs
    · cases hs
    · split at hs
      · cases hs
      · rename_i h1 h2
        exact ⟨by omega, by omega, by omega, (rleSized_ret _ _ _ _ _ _ (isInt64_first p) hs).2⟩

theorem simpleLoop_of_short (U : Unpacker) (dst : Int64Slice) (b : List Byte) (j : Nat)
    (prev : Int) (out : List Int) (hb : b.length < 8) :
    simpleLoop U dst b j prev out = Outcome.ret (dst.withElems out) none := by
  rw [simpleLoop]
  intro b0 b1 b2 b3 b4 b5 b6 b7 rest e
  subst e
  simp only [List.length_cons] at hb
  omega

theorem simpleLoop_eq_simpleWords (U : Unpacker) (dst : Int64Slice) (b : List Byte) :
    ∀ (j : Nat) (prev : Int) (out : List Int),
      simpleLoop U dst b j prev out = simpleWords U dst (words b) j prev out := by
  induction b using words.induct with
  | case1 b0 b1 b2 b3 b4 b5 b6 b7 rest ih =>
    intro j prev out
    rw [simpleLoop, words, simpleWords]
    cases hd : U.decode (uint64OfBytes b0 b1 b2 b3 b4 b5 b6 b7) with
    | error e => rfl
    | ok vs =>
      dsimp only
      cases hv : simpleValues vs j prev out with
      | none => rfl
      | some r =>
        obtain ⟨j1, prev1, out1⟩ := r
        exact ih j1 prev1 out1
  | case2 b hb =>
    intro j prev out
    have hl := length_lt_eight_of_not_cons b hb
    rw [simpleLoop_of_short U dst b j prev out hl, words_of_short b hl, simpleWords]

theorem accumulate_append (ds es : List Int) : ∀ prev,
    accumulate prev (ds ++ es) = accumulate prev ds ++ accumulate (accumulated prev ds) es := by
  induction ds with
  | nil => intro prev; rfl
  | cons d ds ih => intro prev; simp [accumulate, accumulated, ih]

theorem accumulated_append (ds es : List Int) (prev : Int) :
    accumulated prev (ds ++ es) = accumulated (accumulated prev ds) es := by
  simp [accumulated]

theorem simpleValues_eq (vs : List Nat) : ∀ (j : Nat) (prev : Int) (out : List Int),
    j + vs.length ≤ out.length →
    simpleValues vs j prev out =
      some (j + vs.length, accumulated prev (vs.map ZigZagDecode),
        out.take j ++ accumulate prev (vs.map ZigZagDecode) ++ out.drop (j + vs.length)) := by
  induction vs with
  | nil =>
    intro j prev out _
    simp [simpleValues, accumulated, accumulate]
  | cons v vs ih =>
    intro j prev out hlen
    simp only [List.length_cons] at hlen
    have hj : j < out.length := by omega
    rw [simpleValues]
    simp only [if_pos hj]
    rw [ih (j + 1) _ _ (by simp; omega)]
    simp only [List.map_cons, accumulate, accumulated, List.foldl_cons, List.length_cons,
      List.append_assoc, List.cons_append]
    congr 2
    · omega
    · congr 1
      rw [List.take_succ]
      simp only [List.getElem?_set_self hj, Option.toList, take_set_self, List.append_assoc,
        List.singleton_append, List.cons_append, List.nil_append]
      congr 3
      rw [List.drop_set_of_lt _ _ (by omega)]
      congr 1
      omega

theorem simpleWords_ok (U : Unpacker) (dst : Int64Slice) (ws : List Nat) :
    ∀ (us : List (List Nat)) (j : Nat) (prev : Int) (out : List Int),
      ws.map U.decode = us.map Except.ok → j + us.flatten.length ≤ out.length →
      simpleWords U dst ws j prev out =
        Outcome.ret (dst.withElems (out.take j ++ accumulate prev (us.flatten.map ZigZagDecode) ++
          out.drop (j + us.flatten.length))) none := by
  induction ws with
  | nil =>
    intro us j prev out hdec hlen
    cases us with
    | nil => simp [simpleWords, accumulate]
    | cons u us => simp at hdec
  | cons w ws ih =>
    intro us j prev out hdec hlen
    cases us with
    | nil => simp at hdec
    | cons u us =>
      simp only [List.map_cons, List.cons.injEq] at hdec
      simp only [List.flatten_cons, List.length_append] at hlen
      rw [simpleWords, hdec.1]
      dsimp only
      rw [simpleValues_eq u j prev out (by omega)]
      dsimp only
      have hout1 : (List.take j out ++ accumulate prev (List.map ZigZagDecode u) ++
          List.drop (j + u.length) out).length = out.length := by
        simp only [List.length_append, List.length_take, accumulate_length, List.length_map,
          List.length_drop]
        omega
      rw [ih us _ _ _ hdec.2 (by rw [hout1]; omega)]
      congr 2
      simp only [List.flatten_cons, List.map_append, accumulate_append, List.length_append,
        List.append_assoc]
      have e1 : List.take (j + u.length)
          (List.take j out ++ (accumulate prev (List.map ZigZagDecode u) ++
            List.drop (j + u.length) out)) =
          List.take j out ++ accumulate prev (List.map ZigZagDecode u) := by
        rw [← List.append_assoc]
        apply List.take_left'
        simp [accumulate_length]
        omega
      have e2 : List.drop (j + u.length + us.flatten.length)
          (List.take j out ++ (accumulate prev (List.map ZigZagDecode u) ++
            List.drop (j + u.length) out)) =
          List.drop (j + (u.length + us.flatten.length)) out := by
        rw [← List.append_assoc]
        have hl : (List.take j out ++ accumulate prev (List.map ZigZagDecode u)).length =
            j + u.length := by
          simp [accumulate_length]; omega
        rw [List.drop_append_eq_append_drop, hl, List.drop_of_length_le (by omega),
          List.nil_append, List.drop_drop]
        congr 1
        omega
      rw [e1, e2]
      simp [List.append_assoc]

theorem simple_short (U : Unpacker) (h : Byte) (p : List Byte) (dst : Int64Slice)
    (h8 : p.length < 8) :
    integerBatchDecodeAllSimple U (h :: p) dst = Outcome.ret Int64Slice.empty
      (some "IntegerBatchDecodeAll: not enough data to decode packed value") := by
  unfold integerBatchDecodeAllSimple
  dsimp only
  rw [if_pos h8]

/-- The Packed-Delta handler, for a payload of at least 8 bytes, in terms of
the loop over the complete words. -/
theorem simple_eq (U : Unpacker) (h : Byte) (p : List Byte) (dst : Int64Slice)
    (h8 : 8 ≤ p.length) :
    integerBatchDecodeAllSimple U (h :: p) dst =
      match U.countBytes (p.drop 8) with
      | Except.error e => Outcome.ret Int64Slice.empty (some e)
      | Except.ok count =>
        simpleWords U (sizeDst dst (count + 1)) (words (p.drop 8)) 1
          (ZigZagDecode (wordAt p 0))
          ((sizeDst dst (count + 1)).elems.set 0 (ZigZagDecode (wordAt p 0))) := by
  have hlt : ¬ p.length < 8 := by omega
  unfold integerBatchDecodeAllSimple
  dsimp only
  rw [if_neg hlt]
  cases hc : U.countBytes (p.drop 8) with
  | error e => rfl
  | ok count =>
    dsimp only
    rw [bigEndianUint64_of_le p h8]
    dsimp only
    have hl : 0 < (sizeDst dst (count + 1)).len := by rw [sizeDst_len]; omega
    rw [if_pos hl, simpleLoop_eq_simpleWords]

theorem accumulate_step (ds : List Int) : ∀ (prev : Int) (j : Nat) (d e : Int),
    ds[j]? = some d → (prev :: accumulate prev ds)[j]? = some e →
    (prev :: accumulate prev ds)[j + 1]? = some (wrap64 (e + d)) := by
  induction ds with
  | nil => intro prev j d e hd _; simp at hd
  | cons d0 ds ih =>
    intro prev j d e hd he
    cases j with
    | zero =>
      simp only [List.getElem?_cons_zero, Option.some.injEq] at hd he
      subst hd he
      simp [accumulate]
    | succ j =>
      simp only [List.getElem?_cons_succ, accumulate] at hd he
      have := ih _ j d e hd he
      simpa [accumulate] using this

theorem exists_cons_of_eight_le (l : List Byte) (h : 8 ≤ l.length) :
    ∃ b0 b1 b2 b3 b4 b5 b6 b7 rest, l = b0 :: b1 :: b2 :: b3 :: b4 :: b5 :: b6 :: b7 :: rest := by
  by_contra hne
  have := length_lt_eight_of_not_cons l
    (fun b0 b1 b2 b3 b4 b5 b6 b7 rest e => hne ⟨b0, b1, b2, b3, b4, b5, b6, b7, rest, e⟩)
  omega

theorem words_take (k : Nat) : ∀ (l : List Byte), 8 * k ≤ l.length → l.length < 8 * k + 8 →
    words (l.take (8 * k)) = words l := by
  induction k with
  | zero =>
    intro l _ h
    rw [words_of_short l (by omega)]
    simp [words]
  | succ k ih =>
    intro l h1 h2
    obtain ⟨b0, b1, b2, b3, b4, b5, b6, b7, rest, rfl⟩ := exists_cons_of_eight_le l (by omega)
    simp only [List.length_cons] at h1 h2
    have e : 8 * (k + 1) = 8 * k + 1 + 1 + 1 + 1 + 1 + 1 + 1 + 1 := by omega
    rw [e]
    simp only [List.take_succ_cons, words]
    rw [ih rest (by omega) (by omega)]

theorem wordAt_zero_take (p : List Byte) (n : Nat) (hn : 8 ≤ n) :
    wordAt (p.take n) 0 = wordAt p 0 := by
  unfold wordAt
  simp only [Nat.mul_zero, List.drop_zero, List.take_take]
  rw [Nat.min_eq_left hn]

/-- The Packed-Delta handler on validly packed words whose number of values the
counting pass returns: the first value followed by the running sums. -/
theorem simple_ok (U : Unpacker) (h : Byte) (p : List Byte) (dst : Int64Slice)
    (us : List (List Nat)) (h8 : 8 ≤ p.length)
    (hdec : (words (p.drop 8)).map U.decode = us.map Except.ok)
    (hcount : U.countBytes (p.drop 8) = Except.ok us.flatten.length) :
    ∃ s, integerBatchDecodeAllSimple U (h :: p) dst = Outcome.ret s none ∧
      s.elems = ZigZagDecode (wordAt p 0) ::
        accumulate (ZigZagDecode (wordAt p 0)) (us.flatten.map ZigZagDecode) := by
  have hwok := simpleWords_ok U (sizeDst dst (us.flatten.length + 1)) (words (p.drop 8)) us 1
    (ZigZagDecode (wordAt p 0))
    ((sizeDst dst (us.flatten.length + 1)).elems.set 0 (ZigZagDecode (wordAt p 0))) hdec
  obtain ⟨vals, hvals⟩ : ∃ vals, vals = us.flatten := ⟨_, rfl⟩
  rw [← hvals] at hwok hcount ⊢
  clear hvals hdec
  have hsz : (sizeDst dst (vals.length + 1)).elems.length = vals.length + 1 :=
    sizeDst_len dst _
  have hout : ((sizeDst dst (vals.length + 1)).elems.set 0
      (ZigZagDecode (wordAt p 0))).length = vals.length + 1 := by
    rw [List.length_set, hsz]
  rw [simple_eq U h p dst h8, hcount]
  dsimp only
  rw [hwok (by rw [hout]; omega)]
  refine ⟨_, rfl, ?_⟩
  simp only [Int64Slice.withElems]
  rw [List.drop_of_length_le (by rw [hout]; omega), List.append_nil]
  cases hs : (sizeDst dst (vals.length + 1)).elems with
  | nil => rw [hs] at hsz; simp at hsz
  | cons a as => simp

theorem head?_data_append (a b : String) (c : Char) (h : a.data.head? = some c) :
    (a ++ b).data.head? = some c := by
  rw [String.data_append]
  cases hd : a.data with
  | nil => rw [hd] at h; simp at h
  | cons x xs => rw [hd] at h; simpa using h

theorem head?_of_isUnknownEncoding (e : String) (h : IsUnknownEncoding e) :
    e.data.head? = some 'u' := by
  obtain ⟨n, rfl⟩ := h
  exact head?_data_append _ _ _ (by decide)

theorem not_isUnknownEncoding_of_head? (e : String) (c : Char) (hc : c ≠ 'u')
    (h : e.data.head? = some c) : ¬ IsUnknownEncoding e := by
  intro hu
  rw [head?_of_isUnknownEncoding e hu] at h
  exact hc (Option.some.inj h).symm

theorem simpleWords_err (U : Unpacker) (dst : Int64Slice) (ws : List Nat) :
    ∀ (j : Nat) (prev : Int) (out : List Int) (s : Int64Slice) (e : String),
      simpleWords U dst ws j prev out = Outcome.ret s (some e) →
      s = Int64Slice.empty ∧ e.data.head? = some 'f' := by
  induction ws with
  | nil =>
    intro j prev out s e h
    rw [simpleWords] at h
    cases h
  | cons w ws ih =>
    intro j prev out s e h
    rw [simpleWords] at h
    cases hd : U.decode w with
    | error msg =>
      rw [hd] at h
      dsimp only at h
      injection h with h1 h2
      injection h2 with h2
      subst h1 h2
      refine ⟨rfl, ?_⟩
      rw [String.append_assoc, String.append_assoc]
      exact head?_data_append _ _ _ (by decide)
    | ok vs =>
      rw [hd] at h
      dsimp only at h
      cases hv : simpleValues vs j prev out with
      | none => rw [hv] at h; cases h
      | some r =>
        obtain ⟨j1, prev1, out1⟩ := r
        rw [hv] at h
        exact ih _ _ _ _ _ h

/-- Every error return of the Packed-Delta handler carries the empty sequence;
its text starts with `I` or `f`, or is the error of the counting pass. -/
theorem simple_err (U : Unpacker) (h : Byte) (p : List Byte) (dst s : Int64Slice) (e : String)
    (hs : integerBatchDecodeAllSimple U (h :: p) dst = Outcome.ret s (some e)) :
    s = Int64Slice.empty ∧
      (e.data.head? = some 'I' ∨ e.data.head? = some 'f' ∨
        U.countBytes (p.drop 8) = Except.error e) := by
  by_cases h8 : p.length < 8
  · rw [simple_short U h p dst h8] at hs
    injection hs with h1 h2
    injection h2 with h2
    subst h1 h2
    exact ⟨rfl, Or.inl (by decide)⟩
  · rw [simple_eq U h p dst (by omega)] at hs
    cases hc : U.countBytes (p.drop 8) with
    | error msg =>
      rw [hc] at hs
      dsimp only at hs
      injection hs with h1 h2
      injection h2 with h2
      subst h1 h2
      exact ⟨rfl, Or.inr (Or.inr rfl)⟩
    | ok count =>
      rw [hc] at hs
      dsimp only at hs
      have := simpleWords_err U _ _ _ _ _ s e hs
      exact ⟨this.1, Or.inr (Or.inl this.2)⟩

/-- Every error return of the Raw handler carries the empty sequence and a text
that starts with `I`. -/
theorem uncompressed_err (h : Byte) (p : List Byte) (dst s : Int64Slice) (e : String)
    (hs : integerBatchDecodeAllUncompressed (h :: p) dst = Outcome.ret s (some e)) :
    s = Int64Slice.empty ∧ e.data.head? = some 'I' := by
  rw [uncompressed_eq] at hs
  split at hs
  · injection hs with h1 h2
    injection h2 with h2
    subst h1 h2
    exact ⟨rfl, by decide⟩
  · cases hs

/-- Every error return of the Run-Length handler carries the empty sequence and
a text that starts with `I`. -/
theorem rle_err (h : Byte) (p : List Byte) (dst s : Int64Slice) (e : String)
    (hs : integerBatchDecodeAllRLE (h :: p) dst = Outcome.ret s (some e)) :
    s = Int64Slice.empty ∧ e.data.head? = some 'I' := by
  by_cases h8 : p.length < 8
  · rw [rle_short h p dst h8] at hs
    injection hs with h1 h2
    injection h2 with h2
    subst h1 h2
    exact ⟨rfl, by decide⟩
  · rw [rle_eq h p dst (by omega)] at hs
    split at hs
    · injection hs with h1 h2
      injection h2 with h2
      subst h1 h2
      exact ⟨rfl, by decide⟩
    · split at hs
      · injection hs with h1 h2
        injection h2 with h2
        subst h1 h2
        exact ⟨rfl, by decide⟩
      · have := (rleSized_ret _ _ _ _ _ _ (isInt64_first p) hs).1
        cases this

theorem invalid_eq (h : Byte) (p : List Byte) (dst : Int64Slice) :
    integerBatchDecodeAllInvalid (h :: p) dst =
      Outcome.ret Int64Slice.empty (some ("unknown encoding " ++ toString (h.val >>> 4))) := rfl

theorem nibble_cases (h : Byte) :
    h.val >>> 4 = 0 ∨ h.val >>> 4 = 1 ∨ h.val >>> 4 = 2 ∨ 3 ≤ h.val >>> 4 := by
  omega

theorem uvarintLoop_append (buf extra : List Byte) : ∀ (i x s : Nat),
    0 < (uvarintLoop buf i x s).2 →
    uvarintLoop (buf ++ extra) i x s = uvarintLoop buf i x s := by
  induction buf with
  | nil => intro i x s h; simp [uvarintLoop] at h
  | cons b rest ih =>
    intro i x s h
    rw [List.cons_append, uvarintLoop, uvarintLoop]
    rw [uvarintLoop] at h
    by_cases h1 : i = 10
    · rw [if_pos h1, if_pos h1]
    · rw [if_neg h1, if_neg h1]
      rw [if_neg h1] at h
      by_cases h2 : b.val < 0x80
      · rw [if_pos h2, if_pos h2]
      · rw [if_neg h2, if_neg h2]
        rw [if_neg h2] at h
        exact ih _ _ _ h

theorem Uvarint_append (buf extra : List Byte) (h : 0 < (Uvarint buf).2) :
    Uvarint (buf ++ extra) = Uvarint buf :=
  uvarintLoop_append buf extra 0 0 0 h

theorem uvarintLoop_pos_iff (buf : List Byte) : ∀ (i x s : Nat), i ≤ 10 →
    (0 < (uvarintLoop buf i x s).2 ↔
      ∃ (k : Nat) (t : Byte), i + k ≤ 9 ∧ (∀ b ∈ buf.take k, 0x80 ≤ b.val) ∧
        buf[k]? = some t ∧ t.val < 0x80 ∧ (i + k = 9 → t.val ≤ 1)) := by
  induction buf with
  | nil =>
    intro i x s _
    simp [uvarintLoop]
  | cons b rest ih =>
    intro i x s hi
    rw [uvarintLoop]
    by_cases h1 : i = 10
    · rw [if_pos h1]
      constructor
      · intro h; simp only at h; omega
      · rintro ⟨k, t, hk, _⟩; omega
    · rw [if_neg h1]
      by_cases h2 : b.val < 0x80
      · rw [if_pos h2]
        by_cases h3 : i = 9 ∧ b.val > 1
        · rw [if_pos h3]
          constructor
          · intro h; simp only at h; omega
          · rintro ⟨k, t, hk, hall, hget, ht, h9⟩
            cases k with
            | zero =>
              simp only [List.getElem?_cons_zero, Option.some.injEq] at hget
              subst hget
              have := h9 (by omega)
              omega
            | succ k =>
              have := hall b (by simp)
              omega
        · rw [if_neg h3]
          constructor
          · intro _
            refine ⟨0, b, by omega, by simp, by simp, h2, ?_⟩
            intro h9; omega
          · intro _; simp only; omega
      · rw [if_neg h2, ih _ _ _ (by omega)]
        constructor
        · rintro ⟨k, t, hk, hall, hget, ht, h9⟩
          refine ⟨k + 1, t, by omega, ?_, by simpa using hget, ht, fun e => h9 (by omega)⟩
          intro c hc
          simp only [List.take_succ_cons, List.mem_cons] at hc
          rcases hc with rfl | hc
          · omega
          · exact hall c hc
        · rintro ⟨k, t, hk, hall, hget, ht, h9⟩
          cases k with
          | zero =>
            simp only [List.getElem?_cons_zero, Option.some.injEq] at hget
            subst hget
            omega
          | succ k =>
            refine ⟨k, t, by omega, ?_, by simpa using hget, ht, fun e => h9 (by omega)⟩
            intro c hc
            exact hall c (by simp [hc])

theorem Uvarint_pos_iff (buf : List Byte) :
    0 < (Uvarint buf).2 ↔ StartsWithUvarint buf := by
  unfold Uvarint StartsWithUvarint
  rw [uvarintLoop_pos_iff buf 0 0 0 (by omega)]
  simp only [Nat.zero_add]

set_option maxRecDepth 100000 in
theorem byte_or_0x80 : ∀ y : Nat, y < 256 →
    ((y ||| 0x80) % 256 = y % 128 + 128 ∧ ((y ||| 0x80) % 256) &&& 0x7f = y % 128) := by
  decide

theorem putUvarintLoop_length_pos (fuel x : Nat) : 0 < (putUvarintLoop fuel x).length := by
  cases fuel with
  | zero => simp [putUvarintLoop]
  | succ fuel =>
    rw [putUvarintLoop]
    split <;> simp

theorem or_shiftLeft_mod (acc b i : Nat) (hacc : acc < 2 ^ (7 * i))
    (hlt : acc + b * 2 ^ (7 * i) < 2 ^ 64) :
    (acc ||| (b <<< (7 * i))) % 2 ^ 64 = acc + b * 2 ^ (7 * i) := by
  rw [or_shiftLeft_of_lt acc b (7 * i) hacc, Nat.mod_eq_of_lt hlt]

theorem add_mul_lt_two_pow (acc x a c : Nat) (hacc : acc < 2 ^ a) (hx : x < 2 ^ c) :
    acc + x * 2 ^ a < 2 ^ (a + c) := by
  have h1 : acc + x * 2 ^ a < (x + 1) * 2 ^ a := by
    rw [Nat.add_mul]; omega
  have h2 : (x + 1) * 2 ^ a ≤ 2 ^ c * 2 ^ a := Nat.mul_le_mul_right _ hx
  rw [Nat.pow_add, Nat.mul_comm (2 ^ a)]
  omega

theorem uvarintLoop_putUvarintLoop (fuel : Nat) : ∀ (i x acc : Nat) (rest : List Byte),
    i + fuel = 9 → x < 2 ^ (64 - 7 * i) → acc < 2 ^ (7 * i) →
    uvarintLoop (putUvarintLoop fuel x ++ rest) i acc (7 * i) =
      (acc + x * 2 ^ (7 * i), (i : Int) + (putUvarintLoop fuel x).length) := by
  induction fuel with
  | zero =>
    intro i x acc rest hi hx hacc
    have hi9 : i = 9 := by omega
    subst hi9
    have hx2 : x < 2 := by simpa using hx
    have hb : (Fin.ofNat x : Byte).val = x := by
      simp only [Fin.ofNat]; omega
    rw [putUvarintLoop, List.singleton_append, uvarintLoop, if_neg (by omega),
      if_pos (by rw [hb]; omega), if_neg (by rw [hb]; omega), hb]
    rw [or_shiftLeft_mod acc x 9 hacc (by
      have := add_mul_lt_two_pow acc x (7 * 9) 1 hacc (by simpa using hx2)
      simpa using this)]
    simp
  | succ fuel ih =>
    intro i x acc rest hi hx hacc
    have hi8 : i ≤ 8 := by omega
    have hlt64 : acc + x * 2 ^ (7 * i) < 2 ^ 64 := by
      have := add_mul_lt_two_pow acc x (7 * i) (64 - 7 * i) hacc hx
      rwa [show 7 * i + (64 - 7 * i) = 64 by omega] at this
    rw [putUvarintLoop]
    by_cases hge : x ≥ 0x80
    · rw [if_pos hge, List.cons_append, uvarintLoop, if_neg (by omega)]
      have hby := byte_or_0x80 (x % 256) (Nat.mod_lt _ (by decide))
      have hb : (Fin.ofNat ((x % 256) ||| 0x80) : Byte).val = x % 128 + 128 := by
        simp only [Fin.ofNat]
        rw [hby.1]; omega
      have hb2 : (Fin.ofNat ((x % 256) ||| 0x80) : Byte).val &&& 0x7f = x % 128 := by
        simp only [Fin.ofNat]
        rw [hby.2]; omega
      rw [if_neg (by rw [hb]; omega), hb2]
      have hx128 : x % 128 < 2 ^ 7 := Nat.mod_lt _ (by decide)
      have hacc1 : acc + x % 128 * 2 ^ (7 * i) < 2 ^ (7 * (i + 1)) := by
        have := add_mul_lt_two_pow acc (x % 128) (7 * i) 7 hacc hx128
        rwa [show 7 * i + 7 = 7 * (i + 1) by omega] at this
      have hacc64 : acc + x % 128 * 2 ^ (7 * i) < 2 ^ 64 :=
        Nat.lt_of_lt_of_le hacc1 (Nat.pow_le_pow_right (by decide) (by omega))
      rw [or_shiftLeft_mod acc (x % 128) i hacc hacc64,
        show 7 * i + 7 = 7 * (i + 1) by omega]
      have hxs : x >>> 7 < 2 ^ (64 - 7 * (i + 1)) := by
        rw [Nat.shiftRight_eq_div_pow]
        apply Nat.div_lt_of_lt_mul
        rw [← Nat.pow_add]
        rwa [show 7 + (64 - 7 * (i + 1)) = 64 - 7 * i by omega]
      rw [ih (i + 1) (x >>> 7) _ rest (by omega) hxs hacc1]
      congr 1
      · rw [Nat.shiftRight_eq_div_pow, show 7 * (i + 1) = 7 * i + 7 by omega, Nat.pow_add]
        have hdm : x = 2 ^ 7 * (x / 2 ^ 7) + x % 128 := (Nat.div_add_mod x 128).symm
        generalize x / 2 ^ 7 = q at hdm ⊢
        generalize x % 128 = r at hdm ⊢
        subst hdm
        ring
      · simp only [List.length_cons]
        push_cast
        omega
    · rw [if_neg hge, List.singleton_append, uvarintLoop, if_neg (by omega)]
      have hb : (Fin.ofNat x : Byte).val = x := by
        simp only [Fin.ofNat]; omega
      rw [if_pos (by rw [hb]; omega), if_neg (by omega), hb,
        or_shiftLeft_mod acc x i hacc hlt64]
      simp

theorem Uvarint_putUvarint (x : Nat) (hx : x < 2 ^ 64) (rest : List Byte) :
    Uvarint (putUvarint x ++ rest) = (x, ((putUvarint x).length : Int)) := by
  have := uvarintLoop_putUvarintLoop 9 0 x 0 rest (by omega) (by simpa using hx) (by simp)
  simpa [Uvarint, putUvarint] using this

theorem simpleValues_length (vs : List Nat) : ∀ (j : Nat) (prev : Int) (out : List Int)
    (j1 : Nat) (prev1 : Int) (out1 : List Int),
    simpleValues vs j prev out = some (j1, prev1, out1) → out1.length = out.length := by
  induction vs with
  | nil =>
    intro j prev out j1 prev1 out1 h
    simp only [simpleValues, Option.some.injEq, Prod.mk.injEq] at h
    rw [← h.2.2]
  | cons v vs ih =>
    intro j prev out j1 prev1 out1 h
    rw [simpleValues] at h
    by_cases hj : j < out.length
    · simp only [if_pos hj] at h
      rw [ih _ _ _ _ _ _ h, List.length_set]
    · simp only [if_neg hj] at h
      cases h

/-- A return without error of the loop over the words is the sized destination
with its elements overwritten, the length unchanged. -/
theorem simpleWords_ret (U : Unpacker) (dst : Int64Slice) (ws : List Nat) :
    ∀ (j : Nat) (prev : Int) (out : List Int) (s : Int64Slice),
      simpleWords U dst ws j prev out = Outcome.ret s none →
      ∃ out1, s = dst.withElems out1 ∧ out1.length = out.length := by
  induction ws with
  | nil =>
    intro j prev out s h
    rw [simpleWords] at h
    injection h with h1 _
    exact ⟨out, h1.symm, rfl⟩
  | cons w ws ih =>
    intro j prev out s h
    rw [simpleWords] at h
    cases hd : U.decode w with
    | error msg =>
      rw [hd] at h
      dsimp only at h
      injection h with _ h2
      cases h2
    | ok vs =>
      rw [hd] at h
      dsimp only at h
      cases hv : simpleValues vs j prev out with
      | none => rw [hv] at h; cases h
      | some r =>
        obtain ⟨j1, prev1, out1⟩ := r
        rw [hv] at h
        obtain ⟨o, ho, hl⟩ := ih _ _ _ _ h
        exact ⟨o, ho, by rw [hl, simpleValues_length vs j prev out j1 prev1 out1 hv]⟩

theorem toInt_of_pos (count : Nat) (hc : count < 2 ^ 64) (hp : 0 < toInt count) :
    toInt count = count := by
  unfold toInt wrap64 at hp ⊢
  omega

theorem rleFill_withElems (d : Int64Slice) (first delta : Int) :
    rleFill d first delta = d.withElems (rleFill d first delta).elems := by
  unfold rleFill
  split <;> rfl

theorem rleSized_shape (dst s : Int64Slice) (first delta : Int) (count : Nat)
    (hlt : count < 2 ^ 64) (hf : IsInt64 first)
    (hs : rleSized dst first delta count = Outcome.ret s none) :
    ∃ es, s = (sizeDst dst es.length).withElems es := by
  unfold rleSized at hs
  split at hs
  · rename_i hcap
    split at hs
    · injection hs with h1 _
      have hpos : 0 < toInt count := by omega
      have heq := toInt_of_pos count hlt hpos
      rw [heq] at hcap
      have hcap2 : dst.cap < count := by exact_mod_cast hcap
      refine ⟨(rleFill (Int64Slice.make count) first delta).elems, ?_⟩
      rw [rleFill_length _ _ _ hf, make_len, ← h1]
      unfold sizeDst
      rw [if_pos hcap2]
      exact rleFill_withElems _ _ _
    · cases hs
  · split at hs
    · rename_i hcap hle
      injection hs with h1 _
      refine ⟨(rleFill (dst.reslice count) first delta).elems, ?_⟩
      rw [rleFill_length _ _ _ hf, reslice_len _ _ hle, ← h1]
      unfold sizeDst
      rw [if_neg (by omega)]
      exact rleFill_withElems _ _ _
    · cases hs

/-- A return of any handler without error is the destination sized to the length
of the result, with its elements overwritten. -/
theorem ret_shape (U : Unpacker) (h : Byte) (p : List Byte) (dst s : Int64Slice)
    (hs : IntegerBatchDecodeAll U (h :: p) dst = Outcome.ret s none) :
    ∃ es, s = (sizeDst dst es.length).withElems es := by
  rcases nibble_cases h with hn | hn | hn | hn
  · rw [dispatch_uncompressed U h p dst hn, uncompressed_eq] at hs
    split at hs
    · injection hs with _ h2; cases h2
    · rename_i h8
      injection hs with h1 _
      refine ⟨accumulate 0 ((words p).map ZigZagDecode), ?_⟩
      rw [← h1, accumulate_length, List.length_map, words_length]
  · rw [dispatch_simple U h p dst hn] at hs
    by_cases h8 : p.length < 8
    · rw [simple_short U h p dst h8] at hs
      injection hs with _ h2; cases h2
    · rw [simple_eq U h p dst (by omega)] at hs
      cases hc : U.countBytes (p.drop 8) with
      | error msg =>
        rw [hc] at hs
        dsimp only at hs
        injection hs with _ h2; cases h2
      | ok count =>
        rw [hc] at hs
        dsimp only at hs
        obtain ⟨o, ho, hl⟩ := simpleWords_ret U _ _ _ _ _ s hs
        refine ⟨o, ?_⟩
        rw [ho, hl, List.length_set]
        have := sizeDst_len dst (count + 1)
        unfold Int64Slice.len at this
        rw [this]
  · rw [dispatch_rle U h p dst hn] at hs
    by_cases h8 : p.length < 8
    · rw [rle_short h p dst h8] at hs
      injection hs with _ h2; cases h2
    · rw [rle_eq h p dst (by omega)] at hs
      split at hs
      · injection hs with _ h2; cases h2
      · split at hs
        · injection hs with _ h2; cases h2
        · exact rleSized_shape dst s _ _ _ (Nat.mod_lt _ (by decide)) (isInt64_first p) hs
  · rw [dispatch_invalid U h p dst hn, invalid_eq] at hs
    injection hs with _ h2; cases h2

theorem simpleValues_none (vs : List Nat) : ∀ (j : Nat) (prev : Int) (out : List Int),
    j ≤ out.length → out.length < j + vs.length → simpleValues vs j prev out = none := by
  induction vs with
  | nil => intro j prev out h1 h2; simp at h2; omega
  | cons v vs ih =>
    intro j prev out h1 h2
    simp only [List.length_cons] at h2
    rw [simpleValues]
    by_cases hj : j < out.length
    · simp only [if_pos hj]
      exact ih _ _ _ (by rw [List.length_set]; omega) (by rw [List.length_set]; omega)
    · simp only [if_neg hj]

theorem splice_splice (out A B : List Int) (j : Nat) (hj : j + A.length ≤ out.length) :
    (out.take j ++ A ++ out.drop (j + A.length)).take (j + A.length) ++ B ++
        (out.take j ++ A ++ out.drop (j + A.length)).drop (j + A.length + B.length) =
      out.take j ++ (A ++ B) ++ out.drop (j + (A ++ B).length) := by
  have hl : (out.take j ++ A).length = j + A.length := by
    rw [List.length_append, List.length_take]; omega
  have e1 : (out.take j ++ A ++ out.drop (j + A.length)).take (j + A.length) =
      out.take j ++ A := List.take_left' hl
  have e2 : (out.take j ++ A ++ out.drop (j + A.length)).drop (j + A.length + B.length) =
      out.drop (j + (A ++ B).length) := by
    rw [List.drop_append_eq_append_drop, hl, List.drop_of_length_le (by omega),
      List.nil_append, List.drop_drop, List.length_append]
    congr 1
    omega
  rw [e1, e2]
  simp [List.append_assoc]

/-- The loop over the words in closed form: its outcome is the course of the
pass for the room left, and the elements before `j` and after the last write
are left as they were. -/
theorem simpleWords_eq_run (U : Unpacker) (dst : Int64Slice) (ws : List Nat) :
    ∀ (j : Nat) (prev : Int) (out : List Int), j ≤ out.length →
      simpleWords U dst ws j prev out =
        match simpleRun U ws (out.length - j) with
        | none => Outcome.panic "index out of range"
        | some (Except.error m) => Outcome.ret Int64Slice.empty (some m)
        | some (Except.ok vals) =>
          Outcome.ret (dst.withElems (out.take j ++ accumulate prev (vals.map ZigZagDecode) ++
            out.drop (j + vals.length))) none := by
  induction ws with
  | nil =>
    intro j prev out hj
    rw [simpleWords, simpleRun]
    simp [accumulate]
  | cons w ws ih =>
    intro j prev out hj
    rw [simpleWords, simpleRun]
    cases hd : U.decode w with
    | error msg => rfl
    | ok vs =>
      dsimp only
      by_cases hroom : vs.length ≤ out.length - j
      · rw [if_pos hroom, simpleValues_eq vs j prev out (by omega)]
        dsimp only
        have hout1 : (List.take j out ++ accumulate prev (List.map ZigZagDecode vs) ++
            List.drop (j + vs.length) out).length = out.length := by
          simp only [List.length_append, List.length_take, accumulate_length, List.length_map,
            List.length_drop]
          omega
        rw [ih _ _ _ (by rw [hout1]; omega), hout1,
          show out.length - (j + vs.length) = out.length - j - vs.length by omega]
        cases hr : simpleRun U ws (out.length - j - vs.length) with
        | none => rfl
        | some r =>
          cases r with
          | error m => rfl
          | ok vals =>
            dsimp only
            have hA : (accumulate prev (List.map ZigZagDecode vs)).length = vs.length := by
              rw [accumulate_length, List.length_map]
            have := splice_splice out (accumulate prev (List.map ZigZagDecode vs))
              (accumulate (accumulated prev (List.map ZigZagDecode vs))
                (List.map ZigZagDecode vals)) j (by rw [hA]; omega)
            rw [hA] at this
            simp only [accumulate_length, List.length_map, List.length_append] at this
            rw [this, List.map_append, accumulate_append, List.length_append]
      · rw [if_neg hroom, simpleValues_none vs j prev out hj (by omega)]

theorem simpleRun_ok (U : Unpacker) (ws : List Nat) : ∀ (room : Nat) (vals : List Nat),
    simpleRun U ws room = some (Except.ok vals) →
    ∃ us : List (List Nat), ws.map U.decode = us.map Except.ok ∧ vals = us.flatten := by
  induction ws with
  | nil =>
    intro room vals h
    rw [simpleRun] at h
    injection h with h
    injection h with h
    exact ⟨[], rfl, by rw [← h]; rfl⟩
  | cons w ws ih =>
    intro room vals h
    rw [simpleRun] at h
    cases hd : U.decode w with
    | error msg =>
      rw [hd] at h
      dsimp only at h
      injection h with h
      cases h
    | ok vs =>
      rw [hd] at h
      dsimp only at h
      by_cases hroom : vs.length ≤ room
      · rw [if_pos hroom] at h
        cases hr : simpleRun U ws (room - vs.length) with
        | none => rw [hr] at h; cases h
        | some r =>
          cases r with
          | error m => rw [hr] at h; dsimp only at h; injection h with h; cases h
          | ok vals1 =>
            rw [hr] at h
            dsimp only at h
            injection h with h
            injection h with h
            obtain ⟨us, hus, hv⟩ := ih _ _ hr
            refine ⟨vs :: us, ?_, ?_⟩
            · simp only [List.map_cons, hd, hus]
            · rw [← h, hv]; rfl
      · rw [if_neg hroom] at h
        cases h

theorem uncompressed_header (h h1 : Byte) (p : List Byte) (dst : Int64Slice) :
    integerBatchDecodeAllUncompressed (h :: p) dst =
      integerBatchDecodeAllUncompressed (h1 :: p) dst := rfl

theorem simple_header (U : Unpacker) (h h1 : Byte) (p : List Byte) (dst : Int64Slice) :
    integerBatchDecodeAllSimple U (h :: p) dst = integerBatchDecodeAllSimple U (h1 :: p) dst := rfl

theorem rle_header (h h1 : Byte) (p : List Byte) (dst : Int64Slice) :
    integerBatchDecodeAllRLE (h :: p) dst = integerBatchDecodeAllRLE (h1 :: p) dst := rfl

theorem ZigZagEncode_ZigZagDecode (w : Nat) (hw : w < 2 ^ 64) :
    ZigZagEncode (ZigZagDecode w) = w := by
  have hr := ZigZagDecode_range w hw
  by_cases h : ZigZagDecode w < 0
  · rw [ZigZagEncode_neg _ h hr.1]
    unfold ZigZagDecode at h ⊢
    split <;> rename_i h2
    · rw [if_pos h2] at h; omega
    · omega
  · rw [ZigZagEncode_nonneg _ (by omega) hr.2]
    unfold ZigZagDecode at h ⊢
    split <;> rename_i h2
    · omega
    · rw [if_neg h2] at h; omega

theorem wordAt_zero_append (p extra : List Byte) (h8 : 8 ≤ p.length) :
    wordAt (p ++ extra) 0 = wordAt p 0 := by
  unfold wordAt
  simp only [Nat.mul_zero, List.drop_zero]
  rw [List.take_append_of_le_length h8]

/-- The Run-Length handler does not look beyond its second varint. -/
theorem rle_append (h : Byte) (p extra : List Byte) (dst : Int64Slice) (h8 : 8 ≤ p.length)
    (h1 : 0 < (Uvarint (p.drop 8)).2)
    (h2 : 0 < (Uvarint (p.drop (8 + (Uvarint (p.drop 8)).2.toNat))).2) :
    integerBatchDecodeAllRLE (h :: (p ++ extra)) dst = integerBatchDecodeAllRLE (h :: p) dst := by
  have hle := Uvarint_le (p.drop 8)
  rw [List.length_drop] at hle
  have hk : 8 + (Uvarint (p.drop 8)).2.toNat ≤ p.length := by omega
  have e1 : Uvarint ((p ++ extra).drop 8) = Uvarint (p.drop 8) := by
    rw [List.drop_append_of_le_length h8]
    exact Uvarint_append _ _ h1
  have e2 : Uvarint ((p ++ extra).drop (8 + (Uvarint (p.drop 8)).2.toNat)) =
      Uvarint (p.drop (8 + (Uvarint (p.drop 8)).2.toNat)) := by
    rw [List.drop_append_of_le_length hk]
    exact Uvarint_append _ _ h2
  rw [rle_eq h (p ++ extra) dst (by rw [List.length_append]; omega), rle_eq h p dst h8,
    e1, e2, wordAt_zero_append p extra h8]

theorem putUint64_length (w : Nat) : (putUint64 w).length = 8 := rfl

theorem wordAt_zero_putUint64 (w : Nat) (hw : w < 2 ^ 64) (rest : List Byte) :
    wordAt (putUint64 w ++ rest) 0 = w := by
  have h1 := bigEndianUint64_putUint64 w hw rest
  have h2 := bigEndianUint64_of_le (putUint64 w ++ rest)
    (by rw [List.length_append, putUint64_length]; omega)
  rw [h1] at h2
  exact (Option.some.inj h2).symm

theorem toInt_of_lt (count : Nat) (hc : count < 2 ^ 63) : toInt count = count :=
  wrap64_of_range _ (by omega) (by omega)

theorem toInt_neg_of_ge (count : Nat) (h1 : 2 ^ 63 ≤ count) (h2 : count < 2 ^ 64) :
    toInt count < 0 := by
  unfold toInt wrap64
  omega

/-- What the caller observes of the sized Run-Length stage, for a destination
whose capacity fits an `int`: the progression when the count fits an `int` and
the destination holds it or `make` accepts it, a panic otherwise. -/
theorem rleSized_result (dst : Int64Slice) (first delta : Int) (count : Nat)
    (hcap : dst.cap < 2 ^ 63) (hc : count < 2 ^ 64) (hf : IsInt64 first) :
    (rleSized dst first delta count).result =
      if count < 2 ^ 63 ∧ (count ≤ dst.cap ∨ 8 * count ≤ maxAlloc) then
        some ((List.range count).map (fun k : Nat => wrap64 (first + (k : Int) * delta)), none)
      else none := by
  unfold rleSized
  by_cases hlt : count < 2 ^ 63
  · rw [toInt_of_lt count hlt]
    by_cases h1 : (dst.cap : Int) < (count : Int)
    · rw [if_pos h1]
      by_cases h2 : 8 * count ≤ maxAlloc
      · rw [if_pos h2, if_pos ⟨hlt, Or.inr h2⟩]
        simp only [Outcome.result]
        rw [rleFill_elems _ _ _ hf, make_len]
      · rw [if_neg h2, if_neg (by
          rintro ⟨_, h | h⟩
          · omega
          · exact h2 h)]
        rfl
    · rw [if_neg h1, if_pos (by omega), if_pos ⟨hlt, Or.inl (by omega)⟩]
      simp only [Outcome.result]
      rw [rleFill_elems _ _ _ hf, reslice_len _ _ (by omega)]
  · have hng : ¬ (count < 2 ^ 63 ∧ (count ≤ dst.cap ∨ 8 * count ≤ maxAlloc)) :=
      fun hh => hlt hh.1
    rw [if_neg hng]
    have hneg := toInt_neg_of_ge count (by omega) hc
    rw [if_neg (by omega), if_neg (by omega)]
    rfl

/-- What the caller observes of the sized Run-Length stage, for a destination
whose backing array is within `maxAlloc`: it does not depend on the
destination. -/
theorem rleSized_result_of_alloc (dst : Int64Slice) (first delta : Int) (count : Nat)
    (hcap : 8 * dst.cap ≤ maxAlloc) (hc : count < 2 ^ 64) (hf : IsInt64 first) :
    (rleSized dst first delta count).result =
      if 8 * count ≤ maxAlloc then
        some ((List.range count).map (fun k : Nat => wrap64 (first + (k : Int) * delta)), none)
      else none := by
  have hm : maxAlloc = 2 ^ 48 := rfl
  rw [rleSized_result dst first delta count (by omega) hc hf]
  by_cases h2 : 8 * count ≤ maxAlloc
  · rw [if_pos h2, if_pos ⟨by omega, Or.inr h2⟩]
  · rw [if_neg h2, if_neg (by
      rintro ⟨_, h | h⟩
      · omega
      · exact h2 h)]

theorem rle_result_congr (h : Byte) (p : List Byte) (dst1 dst2 : Int64Slice)
    (h1 : 8 * dst1.cap ≤ maxAlloc) (h2 : 8 * dst2.cap ≤ maxAlloc) :
    (integerBatchDecodeAllRLE (h :: p) dst1).result =
      (integerBatchDecodeAllRLE (h :: p) dst2).result := by
  by_cases h8 : p.length < 8
  · rw [rle_short h p dst1 h8, rle_short h p dst2 h8]
  · rw [rle_eq h p dst1 (by omega), rle_eq h p dst2 (by omega)]
    by_cases hv1 : (Uvarint (p.drop 8)).2 ≤ 0
    · rw [if_pos hv1, if_pos hv1]
    · rw [if_neg hv1, if_neg hv1]
      by_cases hv2 : (Uvarint (p.drop (8 + (Uvarint (p.drop 8)).2.toNat))).2 ≤ 0
      · rw [if_pos hv2, if_pos hv2]
      · rw [if_neg hv2, if_neg hv2,
          rleSized_result_of_alloc dst1 _ _ _ h1 (Nat.mod_lt _ (by decide)) (isInt64_first p),
          rleSized_result_of_alloc dst2 _ _ _ h2 (Nat.mod_lt _ (by decide)) (isInt64_first p)]

theorem uncompressed_result_congr (h : Byte) (p : List Byte) (dst1 dst2 : Int64Slice) :
    (integerBatchDecodeAllUncompressed (h :: p) dst1).result =
      (integerBatchDecodeAllUncompressed (h :: p) dst2).result := by
  rw [uncompressed_eq, uncompressed_eq]
  split <;> rfl

theorem first_splice (es A : List Int) (f : Int) (n : Nat) (hl : es.length = n + 1)
    (hA : A.length = n) :
    (es.set 0 f).take 1 ++ A ++ (es.set 0 f).drop (1 + A.length) = f :: A := by
  rw [List.drop_of_length_le (by rw [List.length_set]; omega), List.append_nil]
  cases es with
  | nil => simp at hl
  | cons a as => simp

theorem simple_result_congr (U : Unpacker) (hU : U.Coherent) (h : Byte) (p : List Byte)
    (dst1 dst2 : Int64Slice) :
    (integerBatchDecodeAllSimple U (h :: p) dst1).result =
      (integerBatchDecodeAllSimple U (h :: p) dst2).result := by
  by_cases h8 : p.length < 8
  · rw [simple_short U h p dst1 h8, simple_short U h p dst2 h8]
  · rw [simple_eq U h p dst1 (by omega), simple_eq U h p dst2 (by omega)]
    cases hc : U.countBytes (p.drop 8) with
    | error msg => rfl
    | ok count =>
      dsimp only
      have hl1 : (sizeDst dst1 (count + 1)).elems.length = count + 1 := sizeDst_len dst1 _
      have hl2 : (sizeDst dst2 (count + 1)).elems.length = count + 1 := sizeDst_len dst2 _
      rw [simpleWords_eq_run U _ _ 1 _ _ (by rw [List.length_set, hl1]; omega),
        simpleWords_eq_run U _ _ 1 _ _ (by rw [List.length_set, hl2]; omega),
        List.length_set, List.length_set, hl1, hl2, Nat.add_sub_cancel]
      cases hr : simpleRun U (words (p.drop 8)) count with
      | none => rfl
      | some r =>
        cases r with
        | error m => rfl
        | ok vals =>
          dsimp only
          obtain ⟨us, hus, hv⟩ := simpleRun_ok U _ _ _ hr
          have hn : count = vals.length := by
            rw [hv]; exact hU (p.drop 8) count us hc hus
          subst hn
          have hA : (accumulate (ZigZagDecode (wordAt p 0)) (vals.map ZigZagDecode)).length =
              vals.length := by
            rw [accumulate_length, List.length_map]
          have e1 := first_splice (sizeDst dst1 (vals.length + 1)).elems _
            (ZigZagDecode (wordAt p 0)) vals.length hl1 hA
          have e2 := first_splice (sizeDst dst2 (vals.length + 1)).elems _
            (ZigZagDecode (wordAt p 0)) vals.length hl2 hA
          rw [hA] at e1 e2
          simp only [Outcome.result, Int64Slice.withElems]
          rw [e1, e2]

theorem lenientUnpacker_coherent : lenientUnpacker.Coherent := by
  intro bs n us hc hd
  have hn : n = (words bs).length := by
    simp only [lenientUnpacker, Except.ok.injEq] at hc
    rw [words_length, hc]
  rw [hn]
  clear hc hn
  generalize words bs = ws at hd
  induction ws generalizing us with
  | nil =>
    cases us with
    | nil => rfl
    | cons u us => simp at hd
  | cons w ws ih =>
    cases us with
    | nil => simp at hd
    | cons u us =>
      simp only [List.map_cons, List.cons.injEq, lenientUnpacker, Except.ok.injEq] at hd
      have := ih us (by simpa [lenientUnpacker] using hd.2)
      rw [List.flatten_cons, List.length_append, ← this, ← hd.1]
      simp
      omega

theorem rleSized_panic (dst : Int64Slice) (first delta : Int) (count : Nat)
    (hcap : dst.cap < 2 ^ 63) (h1 : 2 ^ 63 ≤ count) (h2 : count < 2 ^ 64) :
    rleSized dst first delta count = Outcome.panic "slice bounds out of range" := by
  have hneg := toInt_neg_of_ge count h1 h2
  unfold rleSized
  rw [if_neg (by omega), if_neg (by omega)]

theorem rleSized_panic_make (dst : Int64Slice) (first delta : Int) (count : Nat)
    (hcap : dst.cap < count) (h1 : count < 2 ^ 63) (h2 : maxAlloc < 8 * count) :
    rleSized dst first delta count = Outcome.panic "makeslice: len out of range" := by
  unfold rleSized
  rw [toInt_of_lt count h1, if_pos (by omega), if_neg (by omega)]

/-- What the caller observes of a decode, for an unpacker whose counting pass
agrees with its decoding and destinations whose backing array is within
`maxAlloc`, does not depend on the destination. -/
theorem decode_result_congr (U : Unpacker) (hU : U.Coherent) (b : List Byte)
    (d1 d2 : Int64Slice) (hd1 : 8 * d1.cap ≤ maxAlloc) (hd2 : 8 * d2.cap ≤ maxAlloc) :
    (IntegerBatchDecodeAll U b d1).result = (IntegerBatchDecodeAll U b d2).result := by
  cases b with
  | nil => rfl
  | cons h p =>
    rcases nibble_cases h with hn | hn | hn | hn
    · rw [dispatch_uncompressed U h p d1 hn, dispatch_uncompressed U h p d2 hn]
      exact uncompressed_result_congr h p d1 d2
    · rw [dispatch_simple U h p d1 hn, dispatch_simple U h p d2 hn]
      exact simple_result_congr U hU h p d1 d2
    · rw [dispatch_rle U h p d1 hn, dispatch_rle U h p d2 hn]
      exact rle_result_congr h p d1 d2 hd1 hd2
    · rw [dispatch_invalid U h p d1 hn, dispatch_invalid U h p d2 hn, invalid_eq, invalid_eq]

theorem empty_cap_alloc : 8 * Int64Slice.empty.cap ≤ maxAlloc := by decide

/-- The length of the result of a decode without error is the count that the
handler takes from the block: the number of complete words of a Raw payload,
one more than the count of the unpacker for a Packed-Delta payload, the
incremented count field of a Run-Length payload. -/
theorem ret_length (U : Unpacker) (h : Byte) (p : List Byte) (dst s : Int64Slice)
    (hs : IntegerBatchDecodeAll U (h :: p) dst = Outcome.ret s none) :
    (h.val >>> 4 = 0 → s.elems.length = p.length / 8) ∧
    (h.val >>> 4 = 1 → ∃ c, U.countBytes (p.drop 8) = Except.ok c ∧ s.elems.length = c + 1) ∧
    (h.val >>> 4 = 2 → s.elems.length =
      ((Uvarint (p.drop (8 + (Uvarint (p.drop 8)).2.toNat))).1 + 1) % 2 ^ 64) := by
  refine ⟨?_, ?_, ?_⟩
  · intro hn
    rw [dispatch_uncompressed U h p dst hn, uncompressed_eq] at hs
    split at hs
    · injection hs with _ h2; cases h2
    · injection hs with h1 _
      rw [← h1]
      simp only [Int64Slice.withElems]
      rw [accumulate_length, List.length_map, words_length]
  · intro hn
    rw [dispatch_simple U h p dst hn] at hs
    by_cases h8 : p.length < 8
    · rw [simple_short U h p dst h8] at hs
      injection hs with _ h2; cases h2
    · rw [simple_eq U h p dst (by omega)] at hs
      cases hc : U.countBytes (p.drop 8) with
      | error msg =>
        rw [hc] at hs
        dsimp only at hs
        injection hs with _ h2; cases h2
      | ok count =>
        rw [hc] at hs
        dsimp only at hs
        obtain ⟨o, ho, hl⟩ := simpleWords_ret U _ _ _ _ _ s hs
        refine ⟨count, rfl, ?_⟩
        rw [ho]
        simp only [Int64Slice.withElems]
        rw [hl, List.length_set]
        exact sizeDst_len dst (count + 1)
  · intro hn
    rw [dispatch_rle U h p dst hn] at hs
    obtain ⟨_, _, _, he⟩ := rle_ret h p dst s hs
    rw [he, List.length_map, List.length_range]

/-! ## The claims -/

/-- C1. Raw round trip: the Raw encoding of any sequence of signed 64-bit integers
(header `0x00`, then the 8-byte big-endian zig-zag encoding of every wrapping
difference to the element before) decodes, for every destination, without an
error to exactly that sequence. -/
theorem C1_raw_round_trip (U : Unpacker) (seq : List Int) (dst : Int64Slice)
    (hseq : ∀ v ∈ seq, IsInt64 v) :
    ∃ s, IntegerBatchDecodeAll U (encodeRaw seq) dst = Outcome.ret s none ∧ s.elems = seq := by
  have hd := deltas_isInt64 seq 0
  have hlt : ∀ w ∈ (deltas 0 seq).map ZigZagEncode, w < 2 ^ 64 := by
    intro w hw
    obtain ⟨d, hdm, rfl⟩ := List.mem_map.1 hw
    exact ZigZagEncode_lt d (hd d hdm).1 (hd d hdm).2
  have hpay : ((deltas 0 seq).map (fun d => putUint64 (ZigZagEncode d))).flatten =
      (((deltas 0 seq).map ZigZagEncode).map putUint64).flatten := by
    rw [List.map_map]; rfl
  have hdec : ((deltas 0 seq).map ZigZagEncode).map ZigZagDecode = deltas 0 seq := by
    rw [List.map_map]
    conv => rhs; rw [← List.map_id (deltas 0 seq)]
    apply List.map_congr_left
    intro d hdm
    exact ZigZagDecode_ZigZagEncode d (hd d hdm).1 (hd d hdm).2
  unfold encodeRaw
  rw [dispatch_uncompressed U _ _ _ (by decide), uncompressed_eq, hpay,
    length_flatten_putUint64, words_flatten_putUint64 _ hlt, hdec,
    accumulate_deltas seq 0 hseq]
  have h8 : ¬ (8 * ((deltas 0 seq).map ZigZagEncode).length % 8 ≠ 0) := by omega
  rw [if_neg h8]
  exact ⟨_, rfl, rfl⟩

/-- Witness of C1 on the sequence `[i64::MAX, i64::MIN, -1]`, whose differences
overflow. -/
theorem C1_raw_round_trip_witness :
    (∀ v ∈ [9223372036854775807, -9223372036854775808, (-1 : Int)], IsInt64 v) ∧
    ∃ s, IntegerBatchDecodeAll lenientUnpacker
        (encodeRaw [9223372036854775807, -9223372036854775808, -1]) ⟨[7], [8, 9], false⟩ =
          Outcome.ret s none ∧ s.elems = [9223372036854775807, -9223372036854775808, -1] :=
  ⟨by decide, C1_raw_round_trip lenientUnpacker _ _ (by decide)⟩

/-- C2. Raw decoding is a prefix sum: for a buffer whose header has high nibble 0
and whose payload has `8 * n` bytes, the decode returns without error a sequence
of length `n` whose element `i` is the sum, reduced to `int64`, of the zig-zag
decodings of the big-endian words `0 .. i` of the payload. -/
theorem C2_raw_prefix_sum (U : Unpacker) (h : Byte) (payload : List Byte) (dst : Int64Slice)
    (n : Nat) (hn : h.val >>> 4 = 0) (hlen : payload.length = 8 * n) :
    ∃ s, IntegerBatchDecodeAll U (h :: payload) dst = Outcome.ret s none ∧
      s.elems.length = n ∧
      ∀ i, i < n → s.elems[i]? =
        some (wrap64 (∑ k in Finset.range (i + 1), ZigZagDecode (wordAt payload k))) := by
  have h8 : ¬ (payload.length % 8 ≠ 0) := by omega
  have hwl : (words payload).length = n := by rw [words_length]; omega
  rw [dispatch_uncompressed U _ _ _ hn, uncompressed_eq, if_neg h8]
  refine ⟨_, rfl, ?_, ?_⟩
  · simp [Int64Slice.withElems, accumulate_length, hwl]
  · intro i hi
    simp only [Int64Slice.withElems]
    rw [accumulate_getElem? _ 0 i (by simp [hwl, hi]),
      sum_take_map_words payload (i + 1) (by omega)]
    simp

/-- Witness of C2 on a two-word payload. -/
theorem C2_raw_prefix_sum_witness :
    ((0x0f : Byte).val >>> 4 = 0 ∧
      (putUint64 10 ++ putUint64 7).length = 8 * 2) ∧
    ∃ s, IntegerBatchDecodeAll strictUnpacker ((0x0f : Byte) :: (putUint64 10 ++ putUint64 7))
        ⟨[1, 2, 3], [], false⟩ = Outcome.ret s none ∧
      s.elems.length = 2 ∧
      ∀ i, i < 2 → s.elems[i]? =
        some (wrap64 (∑ k in Finset.range (i + 1),
          ZigZagDecode (wordAt (putUint64 10 ++ putUint64 7) k))) :=
  ⟨⟨by decide, by decide⟩,
    C2_raw_prefix_sum strictUnpacker _ _ _ 2 (by decide) (by decide)⟩

/-- C3. Run-Length elements: in every Run-Length block that decodes without an
error, element `i` of the result is `first + i * delta` reduced to `int64`
(two's-complement wraparound); first 10, delta -3, repeat count 3 gives
`[10, 7, 4]`; first `i64::MAX`, delta 1 and at least two elements gives
`i64::MIN` as the second element. -/
theorem C3_rle_elements :
    (∀ (U : Unpacker) (h : Byte) (p : List Byte) (dst s : Int64Slice),
      h.val >>> 4 = 2 → IntegerBatchDecodeAll U (h :: p) dst = Outcome.ret s none →
      ∀ i, i < s.elems.length →
        s.elems[i]? = some (wrap64 (ZigZagDecode (wordAt p 0) +
          (i : Int) * ZigZagDecode (Uvarint (p.drop 8)).1))) ∧
    (∀ (U : Unpacker) (dst : Int64Slice),
      ∃ s, IntegerBatchDecodeAll U
        ((0x20 : Byte) :: (putUint64 (ZigZagEncode 10) ++ [(5 : Byte), 2])) dst =
          Outcome.ret s none ∧ s.elems = [10, 7, 4]) ∧
    (∀ (U : Unpacker) (h : Byte) (p : List Byte) (dst s : Int64Slice),
      h.val >>> 4 = 2 → IntegerBatchDecodeAll U (h :: p) dst = Outcome.ret s none →
      ZigZagDecode (wordAt p 0) = 2 ^ 63 - 1 → ZigZagDecode (Uvarint (p.drop 8)).1 = 1 →
      2 ≤ s.elems.length → s.elems[1]? = some (-2 ^ 63)) := by
  have key : ∀ (U : Unpacker) (h : Byte) (p : List Byte) (dst s : Int64Slice),
      h.val >>> 4 = 2 → IntegerBatchDecodeAll U (h :: p) dst = Outcome.ret s none →
      ∀ i, i < s.elems.length →
        s.elems[i]? = some (wrap64 (ZigZagDecode (wordAt p 0) +
          (i : Int) * ZigZagDecode (Uvarint (p.drop 8)).1)) := by
    intro U h p dst s hn hs i hi
    rw [dispatch_rle U h p dst hn] at hs
    obtain ⟨_, _, _, he⟩ := rle_ret h p dst s hs
    rw [he] at hi ⊢
    simp only [List.length_map, List.length_range] at hi
    exact getElem?_map_range _ _ _ hi
  refine ⟨key, ?_, ?_⟩
  · intro U dst
    have e1 : Uvarint (List.drop 8 (putUint64 (ZigZagEncode 10) ++ [(5 : Byte), 2])) = (5, 1) := by
      decide
    have e2 : Uvarint (List.drop (8 + (1 : Int).toNat)
        (putUint64 (ZigZagEncode 10) ++ [(5 : Byte), 2])) = (2, 1) := by decide
    have e3 : wordAt (putUint64 (ZigZagEncode 10) ++ [(5 : Byte), 2]) 0 = 20 := by decide
    have hr := rle_eq (0x20 : Byte) (putUint64 (ZigZagEncode 10) ++ [(5 : Byte), 2]) dst
      (by decide)
    rw [e1] at hr
    dsimp only at hr
    rw [e2] at hr
    dsimp only at hr
    rw [if_neg (by decide), if_neg (by decide), e3] at hr
    rw [dispatch_rle U _ _ _ (by decide), hr]
    obtain ⟨s, hs⟩ := rleSized_of_fits dst (ZigZagDecode 20) (ZigZagDecode 5) ((2 + 1) % 2 ^ 64)
      (by decide) (Or.inr (by decide))
    refine ⟨s, hs, ?_⟩
    rw [(rleSized_ret _ _ _ _ _ _ (by decide) hs).2]
    decide
  · intro U h p dst s hn hs hf hd hl
    rw [key U h p dst s hn hs 1 (by omega), hf, hd]
    decide

/-- Witness of C3 on the block with first 10, delta -3 and repeat count 3. -/
theorem C3_rle_elements_witness :
    ((0x20 : Byte).val >>> 4 = 2 ∧
      IntegerBatchDecodeAll lenientUnpacker
        ((0x20 : Byte) :: (putUint64 (ZigZagEncode 10) ++ [(5 : Byte), 2])) ⟨[], [], false⟩ =
          Outcome.ret ⟨[10, 7, 4], [], true⟩ none) ∧
    ∀ i, i < ([10, 7, 4] : List Int).length →
      ([10, 7, 4] : List Int)[i]? =
        some (wrap64 (ZigZagDecode (wordAt (putUint64 (ZigZagEncode 10) ++ [(5 : Byte), 2]) 0) +
          (i : Int) * ZigZagDecode
            (Uvarint ((putUint64 (ZigZagEncode 10) ++ [(5 : Byte), 2]).drop 8)).1)) :=
  ⟨⟨by decide, by decide⟩,
    C3_rle_elements.1 lenientUnpacker (0x20 : Byte) _ ⟨[], [], false⟩ ⟨[10, 7, 4], [], true⟩
      (by decide) (by decide)⟩

/-- C4, as stated, fails: with the count field `2^64 - 1` both varints are well
formed, yet the incremented count wraps to 0 and the decode returns the empty
sequence, not one of length `2^64`; with the count field `2^63 - 1` the
conversion `int(count)` is negative and `dst[:count]` panics; with the count
field `2^62` the call `make([]int64, count)` panics. -/
theorem C4_rle_length_counterexample :
    ((0x20 : Byte).val >>> 4 = 2 ∧ 8 ≤ rlePayloadMaxCount.length ∧
      Uvarint (rlePayloadMaxCount.drop 8) = (0, 1) ∧
      Uvarint (rlePayloadMaxCount.drop (8 + 1)) = (2 ^ 64 - 1, 10) ∧
      IntegerBatchDecodeAll lenientUnpacker ((0x20 : Byte) :: rlePayloadMaxCount)
        ⟨[], [], false⟩ = Outcome.ret ⟨[], [], false⟩ none ∧
      ([] : List Int).length ≠ (2 ^ 64 - 1) + 1) ∧
    (8 ≤ rlePayloadIntOverflow.length ∧
      Uvarint (rlePayloadIntOverflow.drop 8) = (0, 1) ∧
      Uvarint (rlePayloadIntOverflow.drop (8 + 1)) = (2 ^ 63 - 1, 9) ∧
      IntegerBatchDecodeAll lenientUnpacker ((0x20 : Byte) :: rlePayloadIntOverflow)
        ⟨[], [], false⟩ = Outcome.panic "slice bounds out of range") ∧
    (8 ≤ rlePayloadMakeOverflow.length ∧
      Uvarint (rlePayloadMakeOverflow.drop 8) = (0, 1) ∧
      Uvarint (rlePayloadMakeOverflow.drop (8 + 1)) = (2 ^ 62, 9) ∧
      IntegerBatchDecodeAll lenientUnpacker ((0x20 : Byte) :: rlePayloadMakeOverflow)
        ⟨[], [], false⟩ = Outcome.panic "makeslice: len out of range") := by
  decide

/-- C4, amended. Run-Length length: for a Run-Length block whose payload has at
least 8 bytes followed by two well-formed unsigned varints, the second decoding
to the count field `c`, the decode returns without an error a sequence of length
`c + 1` whenever `make` accepts that length (`8 * (c + 1) ≤ maxAlloc`), and, for
a destination whose capacity fits an `int`, exactly when the destination holds
`c + 1` elements or `make` accepts that length. -/
theorem C4_rle_length (U : Unpacker) (h : Byte) (p : List Byte) (dst : Int64Slice)
    (hn : h.val >>> 4 = 2) (h8 : 8 ≤ p.length)
    (h1 : 0 < (Uvarint (p.drop 8)).2)
    (h2 : 0 < (Uvarint (p.drop (8 + (Uvarint (p.drop 8)).2.toNat))).2) :
    (8 * ((Uvarint (p.drop (8 + (Uvarint (p.drop 8)).2.toNat))).1 + 1) ≤ maxAlloc →
      ∃ s, IntegerBatchDecodeAll U (h :: p) dst = Outcome.ret s none ∧
        s.elems.length = (Uvarint (p.drop (8 + (Uvarint (p.drop 8)).2.toNat))).1 + 1) ∧
    (dst.cap < 2 ^ 63 →
      ((∃ s, IntegerBatchDecodeAll U (h :: p) dst = Outcome.ret s none ∧
          s.elems.length = (Uvarint (p.drop (8 + (Uvarint (p.drop 8)).2.toNat))).1 + 1) ↔
        ((Uvarint (p.drop (8 + (Uvarint (p.drop 8)).2.toNat))).1 + 1 ≤ dst.cap ∨
          8 * ((Uvarint (p.drop (8 + (Uvarint (p.drop 8)).2.toNat))).1 + 1) ≤ maxAlloc))) := by
  have hm : maxAlloc = 2 ^ 48 := rfl
  generalize hcdef : (Uvarint (p.drop (8 + (Uvarint (p.drop 8)).2.toNat))).1 = c at *
  have hred : IntegerBatchDecodeAll U (h :: p) dst =
      rleSized dst (ZigZagDecode (wordAt p 0)) (ZigZagDecode (Uvarint (p.drop 8)).1)
        ((c + 1) % 2 ^ 64) := by
    rw [dispatch_rle U h p dst hn, rle_eq h p dst h8, if_neg (by omega), if_neg (by omega),
      hcdef]
  have hok : c + 1 < 2 ^ 63 → (c + 1 ≤ dst.cap ∨ 8 * (c + 1) ≤ maxAlloc) →
      ∃ s, IntegerBatchDecodeAll U (h :: p) dst = Outcome.ret s none ∧
        s.elems.length = c + 1 := by
    intro hc hfit
    have hmod : (c + 1) % 2 ^ 64 = c + 1 := Nat.mod_eq_of_lt (by omega)
    rw [hred, hmod]
    obtain ⟨s, hs⟩ := rleSized_of_fits dst (ZigZagDecode (wordAt p 0))
      (ZigZagDecode (Uvarint (p.drop 8)).1) _ hc hfit
    refine ⟨s, hs, ?_⟩
    rw [(rleSized_ret _ _ _ _ _ _ (isInt64_first p) hs).2]
    simp
  refine ⟨fun hfit => hok (by omega) (Or.inr hfit), ?_⟩
  intro hcap
  constructor
  · rintro ⟨s, hs, hl⟩
    rw [hred] at hs
    have he := (rleSized_ret _ _ _ _ _ _ (isInt64_first p) hs).2
    rw [he, List.length_map, List.length_range] at hl
    have hr := rleSized_result dst (ZigZagDecode (wordAt p 0))
      (ZigZagDecode (Uvarint (p.drop 8)).1) ((c + 1) % 2 ^ 64) hcap
      (Nat.mod_lt _ (by decide)) (isInt64_first p)
    rw [hs] at hr
    by_cases hcond : (c + 1) % 2 ^ 64 < 2 ^ 63 ∧
        ((c + 1) % 2 ^ 64 ≤ dst.cap ∨ 8 * ((c + 1) % 2 ^ 64) ≤ maxAlloc)
    · rw [hl] at hcond
      exact hcond.2
    · rw [if_neg hcond] at hr
      cases hr
  · intro hfit
    exact hok (by omega) hfit

/-- Witness of C4 (amended) on the block with first 10, delta -3, count field 2. -/
theorem C4_rle_length_witness :
    ((0x20 : Byte).val >>> 4 = 2 ∧
      8 ≤ (putUint64 (ZigZagEncode 10) ++ [(5 : Byte), 2]).length ∧
      0 < (Uvarint ((putUint64 (ZigZagEncode 10) ++ [(5 : Byte), 2]).drop 8)).2 ∧
      0 < (Uvarint ((putUint64 (ZigZagEncode 10) ++ [(5 : Byte), 2]).drop
        (8 + (Uvarint ((putUint64 (ZigZagEncode 10) ++ [(5 : Byte), 2]).drop 8)).2.toNat))).2 ∧
      8 * ((Uvarint ((putUint64 (ZigZagEncode 10) ++ [(5 : Byte), 2]).drop
        (8 + (Uvarint ((putUint64 (ZigZagEncode 10) ++ [(5 : Byte), 2]).drop 8)).2.toNat))).1
          + 1) ≤ maxAlloc) ∧
    ∃ s, IntegerBatchDecodeAll strictUnpacker
        ((0x20 : Byte) :: (putUint64 (ZigZagEncode 10) ++ [(5 : Byte), 2]))
        ⟨[1, 2, 3, 4], [], false⟩ = Outcome.ret s none ∧
      s.elems.length =
        (Uvarint ((putUint64 (ZigZagEncode 10) ++ [(5 : Byte), 2]).drop
          (8 + (Uvarint ((putUint64 (ZigZagEncode 10) ++ [(5 : Byte), 2]).drop 8)).2.toNat))).1
            + 1 :=
  ⟨by decide, (C4_rle_length strictUnpacker (0x20 : Byte) _ _ (by decide) (by decide)
    (by decide) (by decide)).1 (by decide)⟩

/-- C5. Packed-Delta decoding: for a block with high nibble 1 whose payload has
`8 + 8k` bytes, if the unpacker decodes the `k` words to the lists `us` and its
counting pass over the `8k` bytes returns their total length, the decode returns
without an error a sequence of length `1 + total`, whose element 0 is the zig-zag
decoding of the first 8 payload bytes and whose element `j + 1` is element `j`
plus, reduced to `int64`, the zig-zag decoding of value `j` of the concatenated
lists. -/
theorem C5_packed_delta (U : Unpacker) (h : Byte) (p : List Byte) (dst : Int64Slice)
    (us : List (List Nat)) (hn : h.val >>> 4 = 1) (hlen : p.length = 8 + 8 * us.length)
    (hdec : (words (p.drop 8)).map U.decode = us.map Except.ok)
    (hcount : U.countBytes (p.drop 8) = Except.ok us.flatten.length) :
    ∃ s, IntegerBatchDecodeAll U (h :: p) dst = Outcome.ret s none ∧
      s.elems.length = 1 + us.flatten.length ∧
      s.elems[0]? = some (ZigZagDecode (wordAt p 0)) ∧
      (∀ j v e, us.flatten[j]? = some v → s.elems[j]? = some e →
        s.elems[j + 1]? = some (wrap64 (e + ZigZagDecode v))) ∧
      s.elems = ZigZagDecode (wordAt p 0) ::
        accumulate (ZigZagDecode (wordAt p 0)) (us.flatten.map ZigZagDecode) := by
  have hwok := simpleWords_ok U (sizeDst dst (us.flatten.length + 1)) (words (p.drop 8)) us 1
    (ZigZagDecode (wordAt p 0))
    ((sizeDst dst (us.flatten.length + 1)).elems.set 0 (ZigZagDecode (wordAt p 0))) hdec
  obtain ⟨vals, hvals⟩ : ∃ vals, vals = us.flatten := ⟨_, rfl⟩
  rw [← hvals] at hwok hcount ⊢
  clear hvals hdec
  have hsz : (sizeDst dst (vals.length + 1)).elems.length = vals.length + 1 :=
    sizeDst_len dst _
  have hout : ((sizeDst dst (vals.length + 1)).elems.set 0
      (ZigZagDecode (wordAt p 0))).length = vals.length + 1 := by
    rw [List.length_set, hsz]
  rw [dispatch_simple U h p dst hn, simple_eq U h p dst (by omega), hcount]
  dsimp only
  rw [hwok (by rw [hout]; omega)]
  have hel : List.take 1 ((sizeDst dst (vals.length + 1)).elems.set 0
        (ZigZagDecode (wordAt p 0))) ++
      accumulate (ZigZagDecode (wordAt p 0)) (vals.map ZigZagDecode) ++
      List.drop (1 + vals.length) ((sizeDst dst (vals.length + 1)).elems.set 0
        (ZigZagDecode (wordAt p 0))) =
      ZigZagDecode (wordAt p 0) ::
        accumulate (ZigZagDecode (wordAt p 0)) (vals.map ZigZagDecode) := by
    rw [List.drop_of_length_le (by rw [hout]; omega), List.append_nil]
    cases hs : (sizeDst dst (vals.length + 1)).elems with
    | nil => rw [hs] at hsz; simp at hsz
    | cons a as => simp
  rw [hel]
  refine ⟨_, rfl, ?_, ?_, ?_, rfl⟩
  · simp [Int64Slice.withElems, accumulate_length]; omega
  · simp [Int64Slice.withElems]
  · intro j v e hv he
    simp only [Int64Slice.withElems] at he ⊢
    exact accumulate_step _ _ j _ e (by simp [List.getElem?_map, hv]) he

/-- Witness of C5 on a block with first value 10 and two packed words. -/
theorem C5_packed_delta_witness :
    ((0x10 : Byte).val >>> 4 = 1 ∧
      (putUint64 (ZigZagEncode 10) ++ putUint64 3 ++ putUint64 4).length =
        8 + 8 * ([[3], [4]] : List (List Nat)).length ∧
      (words ((putUint64 (ZigZagEncode 10) ++ putUint64 3 ++ putUint64 4).drop 8)).map
        lenientUnpacker.decode = ([[3], [4]] : List (List Nat)).map Except.ok ∧
      lenientUnpacker.countBytes
        ((putUint64 (ZigZagEncode 10) ++ putUint64 3 ++ putUint64 4).drop 8) =
          Except.ok ([[3], [4]] : List (List Nat)).flatten.length) ∧
    ∃ s, IntegerBatchDecodeAll lenientUnpacker
        ((0x10 : Byte) :: (putUint64 (ZigZagEncode 10) ++ putUint64 3 ++ putUint64 4))
        ⟨[], [], false⟩ = Outcome.ret s none ∧
      s.elems.length = 1 + ([[3], [4]] : List (List Nat)).flatten.length ∧
      s.elems[0]? = some (ZigZagDecode
        (wordAt (putUint64 (ZigZagEncode 10) ++ putUint64 3 ++ putUint64 4) 0)) ∧
      (∀ j v e, ([[3], [4]] : List (List Nat)).flatten[j]? = some v → s.elems[j]? = some e →
        s.elems[j + 1]? = some (wrap64 (e + ZigZagDecode v))) ∧
      s.elems = ZigZagDecode
          (wordAt (putUint64 (ZigZagEncode 10) ++ putUint64 3 ++ putUint64 4) 0) ::
        accumulate (ZigZagDecode
          (wordAt (putUint64 (ZigZagEncode 10) ++ putUint64 3 ++ putUint64 4) 0))
          (([[3], [4]] : List (List Nat)).flatten.map ZigZagDecode) :=
  ⟨⟨by decide, by decide, by rfl, by rfl⟩,
    C5_packed_delta lenientUnpacker (0x10 : Byte) _ ⟨[], [], false⟩ [[3], [4]]
      (by decide) (by decide) (by rfl) (by rfl)⟩

/-- C6, as stated, fails: the bytes after the first value are handed, trailing
fragment included, to the counting pass of the unpacker, whose error is
returned; with an unpacker that rejects a buffer not ending on a word boundary
a block of one validly packed word and one trailing byte is decoded with an
error, while the same block without the trailing byte decodes to `[10, 8]`. -/
theorem C6_trailing_fragment_counterexample :
    (0x10 : Byte).val >>> 4 = 1 ∧
    (putUint64 (ZigZagEncode 10) ++ putUint64 3 ++ [(1 : Byte)]).length = 8 + 8 * 1 + 1 ∧
    (words ((putUint64 (ZigZagEncode 10) ++ putUint64 3 ++ [(1 : Byte)]).drop 8)).map
      strictUnpacker.decode = [Except.ok [3]] ∧
    IntegerBatchDecodeAll strictUnpacker
      ((0x10 : Byte) :: (putUint64 (ZigZagEncode 10) ++ putUint64 3 ++ [(1 : Byte)]))
      ⟨[], [], false⟩ =
        Outcome.ret Int64Slice.empty (some "invalid slice len remaining: 1") ∧
    IntegerBatchDecodeAll strictUnpacker
      ((0x10 : Byte) :: (putUint64 (ZigZagEncode 10) ++ putUint64 3)) ⟨[], [], false⟩ =
        Outcome.ret ⟨[10, 8], [], true⟩ none := by
  refine ⟨by decide, by decide, by rfl, by decide, by decide⟩

/-- C6, amended. Packed-Delta trailing fragment: for a block with high nibble 1
whose payload has `8 + 8k + r` bytes, `1 ≤ r ≤ 7`, the bytes after the first
value, fragment included, go to the counting pass of the unpacker.  When it
rejects them, the decode returns the empty sequence and that error; so with a
counting pass that rejects every length that is not a multiple of 8 the block is
decoded with an error.  When it returns for them what it returns for the `k`
complete words alone, the decode does exactly what it does on the block without
the `r` trailing bytes (the loop over the words does not consume the fragment);
and if moreover the `k` words are validly packed and that count is the number
of their values, the decode returns no error. -/
theorem C6_trailing_fragment (U : Unpacker) (h : Byte) (p : List Byte) (dst : Int64Slice)
    (k r : Nat) (hn : h.val >>> 4 = 1) (hlen : p.length = 8 + 8 * k + r)
    (hr : 1 ≤ r ∧ r ≤ 7) :
    (∀ e, U.countBytes (p.drop 8) = Except.error e →
      IntegerBatchDecodeAll U (h :: p) dst = Outcome.ret Int64Slice.empty (some e)) ∧
    ((∀ bs : List Byte, bs.length % 8 ≠ 0 → ∃ e, U.countBytes bs = Except.error e) →
      ∃ e, IntegerBatchDecodeAll U (h :: p) dst = Outcome.ret Int64Slice.empty (some e)) ∧
    (U.countBytes (p.drop 8) = U.countBytes ((p.take (8 + 8 * k)).drop 8) →
      IntegerBatchDecodeAll U (h :: p) dst =
          IntegerBatchDecodeAll U (h :: p.take (8 + 8 * k)) dst ∧
        ∀ us : List (List Nat),
          (words ((p.take (8 + 8 * k)).drop 8)).map U.decode = us.map Except.ok →
          U.countBytes ((p.take (8 + 8 * k)).drop 8) = Except.ok us.flatten.length →
          ∃ s, IntegerBatchDecodeAll U (h :: p) dst = Outcome.ret s none ∧
            IntegerBatchDecodeAll U (h :: p.take (8 + 8 * k)) dst = Outcome.ret s none ∧
            s.elems = ZigZagDecode (wordAt p 0) ::
              accumulate (ZigZagDecode (wordAt p 0)) (us.flatten.map ZigZagDecode)) := by
  have herr : ∀ e, U.countBytes (p.drop 8) = Except.error e →
      IntegerBatchDecodeAll U (h :: p) dst = Outcome.ret Int64Slice.empty (some e) := by
    intro e he
    rw [dispatch_simple U h p dst hn, simple_eq U h p dst (by omega), he]
  refine ⟨herr, ?_, ?_⟩
  · intro hrej
    obtain ⟨e, he⟩ := hrej (p.drop 8) (by rw [List.length_drop]; omega)
    exact ⟨e, herr e he⟩
  · intro hcount
    have hw : words ((p.take (8 + 8 * k)).drop 8) = words (p.drop 8) := by
      rw [List.drop_take, Nat.add_sub_cancel_left]
      exact words_take k (p.drop 8) (by rw [List.length_drop]; omega)
        (by rw [List.length_drop]; omega)
    have heq : IntegerBatchDecodeAll U (h :: p) dst =
        IntegerBatchDecodeAll U (h :: p.take (8 + 8 * k)) dst := by
      rw [dispatch_simple U h p dst hn, dispatch_simple U h _ dst hn,
        simple_eq U h p dst (by omega),
        simple_eq U h (p.take (8 + 8 * k)) dst (by rw [List.length_take]; omega),
        hcount, hw, wordAt_zero_take p (8 + 8 * k) (by omega)]
    refine ⟨heq, ?_⟩
    intro us hdec hc
    rw [hw] at hdec
    rw [← hcount] at hc
    obtain ⟨s, hs, he⟩ := simple_ok U h p dst us (by omega) hdec hc
    rw [← heq, dispatch_simple U h p dst hn]
    exact ⟨s, hs, hs, he⟩

/-- Witness of C6 (amended) with an unpacker whose counting pass rejects a
trailing fragment: its error is what the decode returns. -/
theorem C6_trailing_fragment_witness :
    ((0x10 : Byte).val >>> 4 = 1 ∧
      (putUint64 (ZigZagEncode 10) ++ putUint64 3 ++ [(1 : Byte)]).length = 8 + 8 * 1 + 1 ∧
      (1 ≤ 1 ∧ 1 ≤ 7) ∧
      strictUnpacker.countBytes
          ((putUint64 (ZigZagEncode 10) ++ putUint64 3 ++ [(1 : Byte)]).drop 8) =
        Except.error "invalid slice len remaining: 1") ∧
    IntegerBatchDecodeAll strictUnpacker
        ((0x10 : Byte) :: (putUint64 (ZigZagEncode 10) ++ putUint64 3 ++ [(1 : Byte)]))
        ⟨[7, 7, 7], [], false⟩ =
      Outcome.ret Int64Slice.empty (some "invalid slice len remaining: 1") :=
  ⟨⟨by decide, by decide, by decide, by rfl⟩,
    (C6_trailing_fragment strictUnpacker (0x10 : Byte) _ ⟨[7, 7, 7], [], false⟩ 1 1
      (by decide) (by decide) (by decide)).1 _ (by rfl)⟩

/-- C7. Empty input: for every destination, decoding the empty buffer returns
the empty sequence and no error. -/
theorem C7_empty_input (U : Unpacker) (dst : Int64Slice) :
    IntegerBatchDecodeAll U [] dst = Outcome.ret Int64Slice.empty none ∧
      Int64Slice.empty.elems = [] := ⟨rfl, rfl⟩

/-- C8. Unknown encoding: a non-empty buffer whose high nibble `n` is 3 or more
is decoded with the error `unknown encoding n`, `n` the original nibble in
decimal (15 for the header `0xF0`); a buffer with nibble 0 or 2 never returns
an error of that text; and a buffer with nibble 1 never returns one either,
provided the counting pass of the unpacker, whose error is passed on unchanged,
does not itself return an error of that text. -/
theorem C8_unknown_encoding (U : Unpacker) (h : Byte) (p : List Byte) (dst : Int64Slice) :
    (3 ≤ h.val >>> 4 →
      IntegerBatchDecodeAll U (h :: p) dst =
        Outcome.ret Int64Slice.empty (some ("unknown encoding " ++ toString (h.val >>> 4)))) ∧
    (h.val >>> 4 = 0 ∨ h.val >>> 4 = 2 →
      ∀ s e, IntegerBatchDecodeAll U (h :: p) dst = Outcome.ret s (some e) →
        ¬ IsUnknownEncoding e) ∧
    (h.val >>> 4 = 1 →
      (∀ e, U.countBytes (p.drop 8) = Except.error e → ¬ IsUnknownEncoding e) →
      ∀ s e, IntegerBatchDecodeAll U (h :: p) dst = Outcome.ret s (some e) →
        ¬ IsUnknownEncoding e) ∧
    ((∀ bs e, U.countBytes bs = Except.error e → ¬ IsUnknownEncoding e) →
      h.val >>> 4 ≤ 2 →
      ∀ s e, IntegerBatchDecodeAll U (h :: p) dst = Outcome.ret s (some e) →
        ¬ IsUnknownEncoding e) ∧
    IntegerBatchDecodeAll U ((0xF0 : Byte) :: p) dst =
      Outcome.ret Int64Slice.empty (some "unknown encoding 15") := by
  have h02 : h.val >>> 4 = 0 ∨ h.val >>> 4 = 2 →
      ∀ s e, IntegerBatchDecodeAll U (h :: p) dst = Outcome.ret s (some e) →
        ¬ IsUnknownEncoding e := by
    intro hn s e hs
    rcases hn with hn | hn
    · rw [dispatch_uncompressed U h p dst hn] at hs
      exact not_isUnknownEncoding_of_head? e 'I' (by decide) (uncompressed_err h p dst s e hs).2
    · rw [dispatch_rle U h p dst hn] at hs
      exact not_isUnknownEncoding_of_head? e 'I' (by decide) (rle_err h p dst s e hs).2
  have h1 : h.val >>> 4 = 1 →
      (∀ e, U.countBytes (p.drop 8) = Except.error e → ¬ IsUnknownEncoding e) →
      ∀ s e, IntegerBatchDecodeAll U (h :: p) dst = Outcome.ret s (some e) →
        ¬ IsUnknownEncoding e := by
    intro hn hU s e hs
    rw [dispatch_simple U h p dst hn] at hs
    rcases (simple_err U h p dst s e hs).2 with h1 | h1 | h1
    · exact not_isUnknownEncoding_of_head? e 'I' (by decide) h1
    · exact not_isUnknownEncoding_of_head? e 'f' (by decide) h1
    · exact hU e h1
  refine ⟨?_, h02, h1, ?_, ?_⟩
  · intro hn
    rw [dispatch_invalid U h p dst hn, invalid_eq]
  · intro hU hn
    rcases nibble_cases h with h0 | h0 | h0 | h0
    · exact h02 (Or.inl h0)
    · exact h1 h0 (fun e he => hU _ e he)
    · exact h02 (Or.inr h0)
    · omega
  · rw [dispatch_invalid U _ p dst (by decide), invalid_eq]
    rfl

/-- Witness of C8 on a Packed-Delta block with a trailing byte, whose error is
the one of the counting pass, `invalid slice len remaining: 1`. -/
theorem C8_unknown_encoding_witness :
    ((0x10 : Byte).val >>> 4 = 1 ∧
      (∀ e, strictUnpacker.countBytes
          ((putUint64 (ZigZagEncode 10) ++ putUint64 3 ++ [(1 : Byte)]).drop 8) =
        Except.error e → ¬ IsUnknownEncoding e) ∧
      IntegerBatchDecodeAll strictUnpacker
        ((0x10 : Byte) :: (putUint64 (ZigZagEncode 10) ++ putUint64 3 ++ [(1 : Byte)]))
        ⟨[], [], false⟩ =
          Outcome.ret Int64Slice.empty (some "invalid slice len remaining: 1")) ∧
    ¬ IsUnknownEncoding "invalid slice len remaining: 1" :=
  have hU : ∀ e, strictUnpacker.countBytes
      ((putUint64 (ZigZagEncode 10) ++ putUint64 3 ++ [(1 : Byte)]).drop 8) =
        Except.error e → ¬ IsUnknownEncoding e := fun e he =>
    not_isUnknownEncoding_of_head? e 'i' (by decide)
      (by
        have h0 : strictUnpacker.countBytes
            ((putUint64 (ZigZagEncode 10) ++ putUint64 3 ++ [(1 : Byte)]).drop 8) =
          Except.error "invalid slice len remaining: 1" := by rfl
        rw [h0] at he
        injection he with he
        rw [← he]
        decide)
  ⟨⟨by decide, hU, by decide⟩,
    (C8_unknown_encoding strictUnpacker (0x10 : Byte)
      (putUint64 (ZigZagEncode 10) ++ putUint64 3 ++ [(1 : Byte)]) ⟨[], [], false⟩).2.2.1
      (by decide) hU Int64Slice.empty "invalid slice len remaining: 1" (by decide)⟩

/-- C9. No partial output: whenever the decode of any buffer returns an error,
from whichever handler, the returned sequence is the empty one, of length 0. -/
theorem C9_no_partial_output (U : Unpacker) (b : List Byte) (dst s : Int64Slice) (e : String)
    (hs : IntegerBatchDecodeAll U b dst = Outcome.ret s (some e)) :
    s = Int64Slice.empty ∧ s.elems = [] ∧ s.len = 0 := by
  have key : s = Int64Slice.empty := by
    cases b with
    | nil =>
      simp only [IntegerBatchDecodeAll] at hs
      cases hs
    | cons h p =>
      rcases nibble_cases h with hn | hn | hn | hn
      · rw [dispatch_uncompressed U h p dst hn] at hs
        exact (uncompressed_err h p dst s e hs).1
      · rw [dispatch_simple U h p dst hn] at hs
        exact (simple_err U h p dst s e hs).1
      · rw [dispatch_rle U h p dst hn] at hs
        exact (rle_err h p dst s e hs).1
      · rw [dispatch_invalid U h p dst hn, invalid_eq] at hs
        injection hs with h1 _
        exact h1.symm
  subst key
  exact ⟨rfl, rfl, rfl⟩

/-- Witness of C9 on a block whose second packed word the unpacker rejects, in
the middle of the second pass, with a destination that holds stale elements. -/
theorem C9_no_partial_output_witness :
    IntegerBatchDecodeAll rejectingUnpacker
        ((0x10 : Byte) :: (putUint64 (ZigZagEncode 10) ++ putUint64 3 ++ putUint64 0))
        ⟨[1, 2, 3], [4], false⟩ =
      Outcome.ret Int64Slice.empty (some "failed to decode value 0: invalid word") ∧
    (Int64Slice.empty = Int64Slice.empty ∧ Int64Slice.empty.elems = [] ∧
      Int64Slice.empty.len = 0) :=
  ⟨by decide, C9_no_partial_output rejectingUnpacker
    ((0x10 : Byte) :: (putUint64 (ZigZagEncode 10) ++ putUint64 3 ++ putUint64 0))
    ⟨[1, 2, 3], [4], false⟩ Int64Slice.empty "failed to decode value 0: invalid word"
    (by decide)⟩

/-- C10. Raw fails iff the length is malformed: a non-empty buffer with high
nibble 0 is decoded with an error exactly when its payload length is not a
multiple of 8, and without an error (and without a panic) otherwise; a 9-byte
payload fails and the header-only block succeeds. -/
theorem C10_raw_error_iff (U : Unpacker) (h : Byte) (payload : List Byte) (dst : Int64Slice)
    (hn : h.val >>> 4 = 0) :
    ((∃ s e, IntegerBatchDecodeAll U (h :: payload) dst = Outcome.ret s (some e)) ↔
        ((h :: payload).length - 1) % 8 ≠ 0) ∧
    (((h :: payload).length - 1) % 8 = 0 →
        ∃ s, IntegerBatchDecodeAll U (h :: payload) dst = Outcome.ret s none) ∧
    (payload.length = 9 → ∃ s e, IntegerBatchDecodeAll U (h :: payload) dst =
        Outcome.ret s (some e)) ∧
    (payload = [] → ∃ s, IntegerBatchDecodeAll U (h :: payload) dst = Outcome.ret s none) := by
  rw [dispatch_uncompressed U _ _ _ hn, uncompressed_eq]
  simp only [List.length_cons, Nat.add_sub_cancel]
  refine ⟨⟨?_, ?_⟩, ?_, ?_, ?_⟩
  · rintro ⟨s, e, he⟩
    by_cases h8 : payload.length % 8 ≠ 0
    · exact h8
    · rw [if_neg h8] at he
      cases he
  · intro h8
    rw [if_pos h8]
    exact ⟨_, _, rfl⟩
  · intro h8
    rw [if_neg (by omega)]
    exact ⟨_, rfl⟩
  · intro h9
    rw [if_pos (by omega)]
    exact ⟨_, _, rfl⟩
  · intro he
    subst he
    exact ⟨_, rfl⟩

/-- Witness of C10 on a header-only block. -/
theorem C10_raw_error_iff_witness :
    (0x00 : Byte).val >>> 4 = 0 ∧
    (((∃ s e, IntegerBatchDecodeAll lenientUnpacker ((0x00 : Byte) :: []) ⟨[], [], false⟩ =
          Outcome.ret s (some e)) ↔
        (((0x00 : Byte) :: ([] : List Byte)).length - 1) % 8 ≠ 0) ∧
    ((((0x00 : Byte) :: ([] : List Byte)).length - 1) % 8 = 0 →
        ∃ s, IntegerBatchDecodeAll lenientUnpacker ((0x00 : Byte) :: []) ⟨[], [], false⟩ =
          Outcome.ret s none) ∧
    (([] : List Byte).length = 9 →
        ∃ s e, IntegerBatchDecodeAll lenientUnpacker ((0x00 : Byte) :: []) ⟨[], [], false⟩ =
          Outcome.ret s (some e)) ∧
    (([] : List Byte) = [] →
        ∃ s, IntegerBatchDecodeAll lenientUnpacker ((0x00 : Byte) :: []) ⟨[], [], false⟩ =
          Outcome.ret s none)) :=
  ⟨by decide, C10_raw_error_iff lenientUnpacker 0x00 [] ⟨[], [], false⟩ (by decide)⟩

/-- C11. Minimum payload: a buffer with high nibble 1 or 2 whose payload is
shorter than 8 bytes is decoded to the empty sequence with the `not enough
data` error of its handler; the outcome is the same for every such payload and
every unpacker, no payload byte is read. -/
theorem C11_minimum_payload (U : Unpacker) (h : Byte) (p : List Byte) (dst : Int64Slice)
    (hn : h.val >>> 4 = 1 ∨ h.val >>> 4 = 2) (hp : p.length < 8) :
    (h.val >>> 4 = 1 → IntegerBatchDecodeAll U (h :: p) dst =
      Outcome.ret Int64Slice.empty
        (some "IntegerBatchDecodeAll: not enough data to decode packed value")) ∧
    (h.val >>> 4 = 2 → IntegerBatchDecodeAll U (h :: p) dst =
      Outcome.ret Int64Slice.empty
        (some "IntegerBatchDecodeAll: not enough data to decode RLE starting value")) ∧
    (∃ e, IntegerBatchDecodeAll U (h :: p) dst = Outcome.ret Int64Slice.empty (some e)) ∧
    Int64Slice.empty.elems = [] ∧
    (∀ (U1 : Unpacker) (p1 : List Byte) (dst1 : Int64Slice), p1.length < 8 →
      IntegerBatchDecodeAll U1 (h :: p1) dst1 = IntegerBatchDecodeAll U (h :: p) dst) := by
  have h1 : h.val >>> 4 = 1 → ∀ (V : Unpacker) (q : List Byte) (d : Int64Slice), q.length < 8 →
      IntegerBatchDecodeAll V (h :: q) d = Outcome.ret Int64Slice.empty
        (some "IntegerBatchDecodeAll: not enough data to decode packed value") := by
    intro h1 V q d hq
    rw [dispatch_simple V h q d h1, simple_short V h q d hq]
  have h2 : h.val >>> 4 = 2 → ∀ (V : Unpacker) (q : List Byte) (d : Int64Slice), q.length < 8 →
      IntegerBatchDecodeAll V (h :: q) d = Outcome.ret Int64Slice.empty
        (some "IntegerBatchDecodeAll: not enough data to decode RLE starting value") := by
    intro h2 V q d hq
    rw [dispatch_rle V h q d h2, rle_short h q d hq]
  refine ⟨fun e => h1 e U p dst hp, fun e => h2 e U p dst hp, ?_, rfl, ?_⟩
  · rcases hn with e | e
    · exact ⟨_, h1 e U p dst hp⟩
    · exact ⟨_, h2 e U p dst hp⟩
  · intro U1 p1 dst1 hp1
    rcases hn with e | e
    · rw [h1 e U p dst hp, h1 e U1 p1 dst1 hp1]
    · rw [h2 e U p dst hp, h2 e U1 p1 dst1 hp1]

/-- Witness of C11 on a Run-Length block with a payload of 7 bytes. -/
theorem C11_minimum_payload_witness :
    (((0x20 : Byte).val >>> 4 = 1 ∨ (0x20 : Byte).val >>> 4 = 2) ∧
      ([1, 2, 3, 4, 5, 6, 7] : List Byte).length < 8) ∧
    IntegerBatchDecodeAll strictUnpacker ((0x20 : Byte) :: [1, 2, 3, 4, 5, 6, 7])
        ⟨[9], [9], false⟩ =
      Outcome.ret Int64Slice.empty
        (some "IntegerBatchDecodeAll: not enough data to decode RLE starting value") :=
  ⟨⟨by decide, by decide⟩,
    (C11_minimum_payload strictUnpacker (0x20 : Byte) [1, 2, 3, 4, 5, 6, 7] ⟨[9], [9], false⟩
      (by decide) (by decide)).2.1 (by decide)⟩

/-- C12. Run-Length fails iff a field is missing or malformed.  A buffer with
high nibble 2 is decoded with an error exactly when its payload is shorter than
8 bytes, or the bytes after the first 8 do not start with a well-formed unsigned
varint, or the bytes after that varint do not; and the bytes after the second
varint are ignored.  The failing input: the payload with first value 0, delta 0
and count field `2^63 - 1` has 8 bytes and two well-formed varints, so none of
the three conditions of an error holds, yet the decode does not succeed: the
conversion `int(count)` is negative and `dst[:count]` panics. -/
theorem C12_rle_error_iff (U : Unpacker) (h : Byte) (p : List Byte) (dst : Int64Slice)
    (hn : h.val >>> 4 = 2) :
    ((∃ s e, IntegerBatchDecodeAll U (h :: p) dst = Outcome.ret s (some e)) ↔
      (p.length < 8 ∨ ¬ StartsWithUvarint (p.drop 8) ∨
        ¬ StartsWithUvarint (p.drop (8 + (Uvarint (p.drop 8)).2.toNat)))) ∧
    (8 ≤ p.length → StartsWithUvarint (p.drop 8) →
      StartsWithUvarint (p.drop (8 + (Uvarint (p.drop 8)).2.toNat)) →
      ∀ extra : List Byte,
        IntegerBatchDecodeAll U (h :: (p ++ extra)) dst =
          IntegerBatchDecodeAll U (h :: p) dst) ∧
    (¬ (rlePayloadIntOverflow.length < 8 ∨
        ¬ StartsWithUvarint (rlePayloadIntOverflow.drop 8) ∨
        ¬ StartsWithUvarint (rlePayloadIntOverflow.drop
          (8 + (Uvarint (rlePayloadIntOverflow.drop 8)).2.toNat))) ∧
      IntegerBatchDecodeAll U ((0x20 : Byte) :: rlePayloadIntOverflow)
        ⟨[1, 2], [3], false⟩ = Outcome.panic "slice bounds out of range" ∧
      ¬ ∃ s, IntegerBatchDecodeAll U ((0x20 : Byte) :: rlePayloadIntOverflow)
        ⟨[1, 2], [3], false⟩ = Outcome.ret s none) := by
  simp only [← Uvarint_pos_iff]
  refine ⟨⟨?_, ?_⟩, ?_, ?_⟩
  · rw [dispatch_rle U h p dst hn]
    rintro ⟨s, e, hs⟩
    by_cases h8 : p.length < 8
    · exact Or.inl h8
    · rw [rle_eq h p dst (by omega)] at hs
      split at hs
      · rename_i h1
        exact Or.inr (Or.inl (by omega))
      · split at hs
        · rename_i h1 h2
          exact Or.inr (Or.inr (by omega))
        · have := (rleSized_ret _ _ _ _ _ _ (isInt64_first p) hs).1
          cases this
  · rw [dispatch_rle U h p dst hn]
    intro hc
    by_cases h8 : p.length < 8
    · rw [rle_short h p dst h8]
      exact ⟨_, _, rfl⟩
    · rw [rle_eq h p dst (by omega)]
      by_cases h1 : (Uvarint (p.drop 8)).2 ≤ 0
      · rw [if_pos h1]
        exact ⟨_, _, rfl⟩
      · rw [if_neg h1]
        have h2 : (Uvarint (p.drop (8 + (Uvarint (p.drop 8)).2.toNat))).2 ≤ 0 := by
          rcases hc with hc | hc | hc
          · exact absurd hc h8
          · omega
          · omega
        rw [if_pos h2]
        exact ⟨_, _, rfl⟩
  · intro h8 h1 h2 extra
    rw [dispatch_rle U h (p ++ extra) dst hn, dispatch_rle U h p dst hn]
    exact rle_append h p extra dst h8 h1 h2
  · have hp : IntegerBatchDecodeAll U ((0x20 : Byte) :: rlePayloadIntOverflow)
        ⟨[1, 2], [3], false⟩ = Outcome.panic "slice bounds out of range" := by
      have e1 : Uvarint (rlePayloadIntOverflow.drop 8) = (0, 1) := by decide
      have e2 : Uvarint (rlePayloadIntOverflow.drop (8 + (1 : Int).toNat)) =
          (2 ^ 63 - 1, 9) := by decide
      have hr := rle_eq (0x20 : Byte) rlePayloadIntOverflow ⟨[1, 2], [3], false⟩ (by decide)
      rw [e1] at hr
      dsimp only at hr
      rw [e2] at hr
      dsimp only at hr
      rw [if_neg (by decide), if_neg (by decide)] at hr
      rw [dispatch_rle U _ _ _ (by decide), hr]
      exact rleSized_panic _ _ _ _ (by decide) (by decide) (by decide)
    refine ⟨by decide, hp, ?_⟩
    rintro ⟨s, hs⟩
    rw [hp] at hs
    cases hs

/-- Witness of C12 on the block with first 10, delta -3, count field 2. -/
theorem C12_rle_error_iff_witness :
    (0x20 : Byte).val >>> 4 = 2 ∧
    ((∃ s e, IntegerBatchDecodeAll lenientUnpacker
        ((0x20 : Byte) :: (putUint64 (ZigZagEncode 10) ++ [(5 : Byte), 2])) ⟨[], [], false⟩ =
          Outcome.ret s (some e)) ↔
      ((putUint64 (ZigZagEncode 10) ++ [(5 : Byte), 2]).length < 8 ∨
        ¬ StartsWithUvarint ((putUint64 (ZigZagEncode 10) ++ [(5 : Byte), 2]).drop 8) ∨
        ¬ StartsWithUvarint ((putUint64 (ZigZagEncode 10) ++ [(5 : Byte), 2]).drop
          (8 + (Uvarint ((putUint64 (ZigZagEncode 10) ++ [(5 : Byte), 2]).drop 8)).2.toNat)))) :=
  ⟨by decide, (C12_rle_error_iff lenientUnpacker (0x20 : Byte)
    (putUint64 (ZigZagEncode 10) ++ [(5 : Byte), 2]) ⟨[], [], false⟩ (by decide)).1⟩

/-- C13. Packed-Delta with only a first value: a 9-byte buffer with high nibble
1, the unpacker counting 0 values in the empty buffer, is decoded without an
error to the one-element sequence holding the zig-zag decoding of the big-endian
word in payload bytes 0..7. -/
theorem C13_packed_first_only (U : Unpacker) (h : Byte) (p : List Byte) (dst : Int64Slice)
    (hn : h.val >>> 4 = 1) (hlen : (h :: p).length = 9)
    (hcount : U.countBytes [] = Except.ok 0) :
    ∃ s, IntegerBatchDecodeAll U (h :: p) dst = Outcome.ret s none ∧
      s.elems = [ZigZagDecode (wordAt p 0)] ∧ s.elems.length = 1 := by
  simp only [List.length_cons] at hlen
  have hd : p.drop 8 = [] := List.drop_of_length_le (by omega)
  obtain ⟨s, hs, he⟩ := simple_ok U h p dst [] (by omega)
    (by rw [hd]; simp [words]) (by rw [hd]; simpa using hcount)
  rw [dispatch_simple U h p dst hn]
  refine ⟨s, hs, ?_, ?_⟩
  · rw [he]; simp [accumulate]
  · rw [he]; simp [accumulate]

/-- Witness of C13 on the block holding only the first value -3. -/
theorem C13_packed_first_only_witness :
    ((0x10 : Byte).val >>> 4 = 1 ∧
      ((0x10 : Byte) :: putUint64 (ZigZagEncode (-3))).length = 9 ∧
      lenientUnpacker.countBytes [] = Except.ok 0) ∧
    ∃ s, IntegerBatchDecodeAll lenientUnpacker ((0x10 : Byte) :: putUint64 (ZigZagEncode (-3)))
        ⟨[], [], false⟩ = Outcome.ret s none ∧
      s.elems = [ZigZagDecode (wordAt (putUint64 (ZigZagEncode (-3))) 0)] ∧
      s.elems.length = 1 :=
  ⟨⟨by decide, by decide, by rfl⟩,
    C13_packed_first_only lenientUnpacker (0x10 : Byte) _ ⟨[], [], false⟩
      (by decide) (by decide) (by rfl)⟩

/-- C14. Sign-fold is a bijection: the zig-zag decode, `w/2` for an even word
and `-((w+1)/2)` for an odd one, maps every unsigned 64-bit word to a signed
64-bit integer, injectively and onto; 0 goes to 0, `2^64 - 2` to `i64::MAX`,
`2^64 - 1` to `i64::MIN`; it is the inverse, on both sides, of the zig-zag encode
`(v << 1) xor (v >> 63)`, which is therefore injective too. -/
theorem C14_sign_fold_bijection :
    (∀ w : Nat, w < 2 ^ 64 →
      ZigZagDecode w = if w % 2 = 0 then ((w / 2 : Nat) : Int) else -(((w + 1) / 2 : Nat) : Int)) ∧
    (∀ w : Nat, w < 2 ^ 64 → IsInt64 (ZigZagDecode w)) ∧
    (∀ w1 w2 : Nat, w1 < 2 ^ 64 → w2 < 2 ^ 64 → ZigZagDecode w1 = ZigZagDecode w2 → w1 = w2) ∧
    (∀ v : Int, IsInt64 v → ∃ w : Nat, w < 2 ^ 64 ∧ ZigZagDecode w = v) ∧
    (ZigZagDecode 0 = 0 ∧ ZigZagDecode (2 ^ 64 - 2) = 2 ^ 63 - 1 ∧
      ZigZagDecode (2 ^ 64 - 1) = -2 ^ 63) ∧
    (∀ v : Int, IsInt64 v → ZigZagEncode v < 2 ^ 64 ∧ ZigZagDecode (ZigZagEncode v) = v) ∧
    (∀ w : Nat, w < 2 ^ 64 → ZigZagEncode (ZigZagDecode w) = w) ∧
    (∀ v1 v2 : Int, IsInt64 v1 → IsInt64 v2 → ZigZagEncode v1 = ZigZagEncode v2 → v1 = v2) := by
  refine ⟨fun w _ => rfl, fun w hw => ZigZagDecode_range w hw, ?_, ?_, ?_, ?_,
    ZigZagEncode_ZigZagDecode, ?_⟩
  · intro w1 w2 h1 h2 he
    rw [← ZigZagEncode_ZigZagDecode w1 h1, ← ZigZagEncode_ZigZagDecode w2 h2, he]
  · intro v hv
    exact ⟨ZigZagEncode v, ZigZagEncode_lt v hv.1 hv.2, ZigZagDecode_ZigZagEncode v hv.1 hv.2⟩
  · decide
  · intro v hv
    exact ⟨ZigZagEncode_lt v hv.1 hv.2, ZigZagDecode_ZigZagEncode v hv.1 hv.2⟩
  · intro v1 v2 h1 h2 he
    rw [← ZigZagDecode_ZigZagEncode v1 h1.1 h1.2, ← ZigZagDecode_ZigZagEncode v2 h2.1 h2.2, he]

/-- Witness of C14 at `i64::MIN`, the value whose encoding is the word
`2^64 - 1`. -/
theorem C14_sign_fold_bijection_witness :
    IsInt64 (-9223372036854775808) ∧
    (ZigZagEncode (-9223372036854775808) < 2 ^ 64 ∧
      ZigZagDecode (ZigZagEncode (-9223372036854775808)) = -9223372036854775808) :=
  ⟨by decide, C14_sign_fold_bijection.2.2.2.2.2.1 (-9223372036854775808) (by decide)⟩

/-- C15. The destination is an optimisation only: for an unpacker whose
counting pass agrees with its decoding, and destinations whose backing array is
within the allocation limit of the run time (`8 * cap ≤ maxAlloc`, as for every
slice that was ever allocated), the decode of any buffer with two destinations,
whatever their lengths, capacities and contents, is observed the same: both
return the same sequence and the same error, or both panic; nothing of the
prior contents of a destination shows in the result, which is that of the
decode into an empty destination. -/
theorem C15_destination_independent (U : Unpacker) (b : List Byte) (dst1 dst2 : Int64Slice)
    (hU : U.Coherent) (h1 : 8 * dst1.cap ≤ maxAlloc) (h2 : 8 * dst2.cap ≤ maxAlloc) :
    (IntegerBatchDecodeAll U b dst1).result = (IntegerBatchDecodeAll U b dst2).result ∧
    (IntegerBatchDecodeAll U b dst1).result =
      (IntegerBatchDecodeAll U b Int64Slice.empty).result :=
  ⟨decode_result_congr U hU b dst1 dst2 h1 h2,
    decode_result_congr U hU b dst1 Int64Slice.empty h1 empty_cap_alloc⟩

/-- Witness of C15 on a Packed-Delta block, with an empty destination and one
that holds stale elements. -/
theorem C15_destination_independent_witness :
    (lenientUnpacker.Coherent ∧ 8 * Int64Slice.cap ⟨[], [], false⟩ ≤ maxAlloc ∧
      8 * Int64Slice.cap ⟨[7, 7, 7, 7], [7, 7], false⟩ ≤ maxAlloc) ∧
    (IntegerBatchDecodeAll lenientUnpacker
        ((0x10 : Byte) :: (putUint64 (ZigZagEncode 10) ++ putUint64 3 ++ putUint64 4))
        ⟨[], [], false⟩).result =
      (IntegerBatchDecodeAll lenientUnpacker
        ((0x10 : Byte) :: (putUint64 (ZigZagEncode 10) ++ putUint64 3 ++ putUint64 4))
        ⟨[7, 7, 7, 7], [7, 7], false⟩).result :=
  ⟨⟨lenientUnpacker_coherent, by decide, by decide⟩,
    (C15_destination_independent lenientUnpacker _ ⟨[], [], false⟩ ⟨[7, 7, 7, 7], [7, 7], false⟩
      lenientUnpacker_coherent (by decide) (by decide)).1⟩

/-- C16. Size-then-fill reuse: a decode of a non-empty buffer that returns
without error returns a sequence of the length `n` that the handler takes from
the block (the number of 8-byte words of a Raw payload, one more than the count
of the unpacker for a Packed-Delta payload, the incremented count field of a
Run-Length payload); if `cap(dst) ≥ n` the result is the storage of `dst`
resliced to length `n` (same backing array, capacity unchanged, nothing
allocated), and if `cap(dst) < n` a newly made container of length and capacity
`n`; in both cases the capacity of the result is at least `n`.  For an unpacker
whose counting pass agrees with its decoding and a destination within the
allocation limit, the `n` elements are those of the decode into an empty
destination: none of them is a prior element of `dst`. -/
theorem C16_size_then_fill (U : Unpacker) (h : Byte) (p : List Byte) (dst s : Int64Slice)
    (hs : IntegerBatchDecodeAll U (h :: p) dst = Outcome.ret s none) :
    ∃ n : Nat,
      (h.val >>> 4 = 0 → n = p.length / 8) ∧
      (h.val >>> 4 = 1 → ∃ c, U.countBytes (p.drop 8) = Except.ok c ∧ n = c + 1) ∧
      (h.val >>> 4 = 2 →
        n = ((Uvarint (p.drop (8 + (Uvarint (p.drop 8)).2.toNat))).1 + 1) % 2 ^ 64) ∧
      s.len = n ∧
      (n ≤ dst.cap →
        s = (dst.reslice n).withElems s.elems ∧
          s.spare = (dst.elems ++ dst.spare).drop n ∧ s.fresh = dst.fresh ∧
          s.cap = dst.cap) ∧
      (dst.cap < n →
        s = (Int64Slice.make n).withElems s.elems ∧ s.spare = [] ∧ s.fresh = true ∧
          s.cap = n) ∧
      n ≤ s.cap ∧
      (U.Coherent → 8 * dst.cap ≤ maxAlloc →
        (IntegerBatchDecodeAll U (h :: p) Int64Slice.empty).result = some (s.elems, none)) := by
  obtain ⟨es, he⟩ := ret_shape U h p dst s hs
  have hes : s.elems = es := by rw [he]; rfl
  have hlen := ret_length U h p dst s hs
  refine ⟨s.elems.length, hlen.1, hlen.2.1, hlen.2.2, rfl, ?_, ?_, ?_, ?_⟩
  · intro hle
    rw [hes] at hle ⊢
    have hsz : sizeDst dst es.length = dst.reslice es.length := by
      unfold sizeDst
      rw [if_neg (by omega)]
    rw [he, hsz]
    refine ⟨rfl, rfl, rfl, ?_⟩
    simp only [Int64Slice.cap, Int64Slice.withElems, Int64Slice.reslice, List.length_drop,
      List.length_append] at hle ⊢
    omega
  · intro hlt
    rw [hes] at hlt ⊢
    have hsz : sizeDst dst es.length = Int64Slice.make es.length := by
      unfold sizeDst
      rw [if_pos hlt]
    rw [he, hsz]
    refine ⟨rfl, rfl, rfl, ?_⟩
    simp [Int64Slice.cap, Int64Slice.withElems, Int64Slice.make, Int64Slice.len]
  · simp only [Int64Slice.cap]
    omega
  · intro hU hcap
    rw [decode_result_congr U hU (h :: p) Int64Slice.empty dst empty_cap_alloc hcap, hs]
    rfl

/-- Witness of C16 on a Run-Length block of three values and a caller's
destination of capacity five. -/
theorem C16_size_then_fill_witness :
    IntegerBatchDecodeAll lenientUnpacker
        ((0x20 : Byte) :: (putUint64 (ZigZagEncode 10) ++ [(5 : Byte), 2]))
        ⟨[1, 2], [3, 4, 5], false⟩ = Outcome.ret ⟨[10, 7, 4], [4, 5], false⟩ none ∧
    ∃ n : Nat,
      ((0x20 : Byte).val >>> 4 = 0 →
        n = (putUint64 (ZigZagEncode 10) ++ [(5 : Byte), 2]).length / 8) ∧
      ((0x20 : Byte).val >>> 4 = 1 → ∃ c, lenientUnpacker.countBytes
        ((putUint64 (ZigZagEncode 10) ++ [(5 : Byte), 2]).drop 8) = Except.ok c ∧ n = c + 1) ∧
      ((0x20 : Byte).val >>> 4 = 2 →
        n = ((Uvarint ((putUint64 (ZigZagEncode 10) ++ [(5 : Byte), 2]).drop
          (8 + (Uvarint ((putUint64 (ZigZagEncode 10) ++ [(5 : Byte), 2]).drop 8)).2.toNat))).1
            + 1) % 2 ^ 64) ∧
      Int64Slice.len ⟨[10, 7, 4], [4, 5], false⟩ = n ∧
      (n ≤ Int64Slice.cap ⟨[1, 2], [3, 4, 5], false⟩ →
        (⟨[10, 7, 4], [4, 5], false⟩ : Int64Slice) =
            (Int64Slice.reslice ⟨[1, 2], [3, 4, 5], false⟩ n).withElems [10, 7, 4] ∧
          ([4, 5] : List Int) = (([1, 2] : List Int) ++ [3, 4, 5]).drop n ∧
          false = false ∧
          Int64Slice.cap ⟨[10, 7, 4], [4, 5], false⟩ =
            Int64Slice.cap ⟨[1, 2], [3, 4, 5], false⟩) ∧
      (Int64Slice.cap ⟨[1, 2], [3, 4, 5], false⟩ < n →
        (⟨[10, 7, 4], [4, 5], false⟩ : Int64Slice) =
            (Int64Slice.make n).withElems [10, 7, 4] ∧
          ([4, 5] : List Int) = [] ∧ false = true ∧
          Int64Slice.cap ⟨[10, 7, 4], [4, 5], false⟩ = n) ∧
      n ≤ Int64Slice.cap ⟨[10, 7, 4], [4, 5], false⟩ ∧
      (lenientUnpacker.Coherent → 8 * Int64Slice.cap ⟨[1, 2], [3, 4, 5], false⟩ ≤ maxAlloc →
        (IntegerBatchDecodeAll lenientUnpacker
          ((0x20 : Byte) :: (putUint64 (ZigZagEncode 10) ++ [(5 : Byte), 2]))
          Int64Slice.empty).result = some ([10, 7, 4], none)) :=
  ⟨by decide,
    C16_size_then_fill lenientUnpacker (0x20 : Byte)
      (putUint64 (ZigZagEncode 10) ++ [(5 : Byte), 2])
      ⟨[1, 2], [3, 4, 5], false⟩ ⟨[10, 7, 4], [4, 5], false⟩ (by decide)⟩

/-- C17. Run-Length round trip: for a first value `f` and a delta `d` in the
signed 64-bit integers and a repeat count `n ≥ 1` that `make` accepts
(`8 * n ≤ maxAlloc`) or that fits an `int` and the capacity of the destination,
the block `0x20`, big-endian zig-zag of `f`, varint of the zig-zag of `d`,
varint of `n - 1` is decoded without an error to the `n` values
`f, f+d, f+2d, ...`, every sum reduced to `int64`; with `d = 0` and the count
field 4 the result is `[f, f, f, f, f]`.  The failing input: at `f = 0`,
`d = 0` and the repeat count `2^62 + 1`, which is below `2^63`, the decode of
the encoded block into an empty destination does not return:
`make([]int64, count)` panics, since `8 * count` bytes are more than
`maxAlloc`. -/
theorem C17_rle_round_trip (U : Unpacker) (f d : Int) (n : Nat) (dst : Int64Slice)
    (hf : IsInt64 f) (hd : IsInt64 d) (hn : 1 ≤ n)
    (hfit : 8 * n ≤ maxAlloc ∨ (n < 2 ^ 63 ∧ n ≤ dst.cap)) :
    (∃ s, IntegerBatchDecodeAll U (encodeRLE f d n) dst = Outcome.ret s none ∧
      s.elems = (List.range n).map (fun k : Nat => wrap64 (f + (k : Int) * d)) ∧
      s.elems.length = n ∧
      (d = 0 → n = 5 → s.elems = [f, f, f, f, f])) ∧
    (IsInt64 0 ∧ (1 ≤ 2 ^ 62 + 1 ∧ 2 ^ 62 + 1 < 2 ^ 63) ∧
      encodeRLE 0 0 (2 ^ 62 + 1) =
        [0x20, 0, 0, 0, 0, 0, 0, 0, 0, 0, 0x80, 0x80, 0x80, 0x80, 0x80, 0x80, 0x80, 0x80,
          0x40] ∧
      IntegerBatchDecodeAll U (encodeRLE 0 0 (2 ^ 62 + 1)) Int64Slice.empty =
        Outcome.panic "makeslice: len out of range" ∧
      ¬ ∃ s e, IntegerBatchDecodeAll U (encodeRLE 0 0 (2 ^ 62 + 1)) Int64Slice.empty =
        Outcome.ret s e) := by
  have hm : maxAlloc = 2 ^ 48 := rfl
  refine ⟨?_, ?_⟩
  swap
  · have henc : encodeRLE 0 0 (2 ^ 62 + 1) = (0x20 : Byte) :: rlePayloadMakeOverflow := by
      decide
    have hp : IntegerBatchDecodeAll U (encodeRLE 0 0 (2 ^ 62 + 1)) Int64Slice.empty =
        Outcome.panic "makeslice: len out of range" := by
      have e1 : Uvarint (rlePayloadMakeOverflow.drop 8) = (0, 1) := by decide
      have e2 : Uvarint (rlePayloadMakeOverflow.drop (8 + (1 : Int).toNat)) =
          (2 ^ 62, 9) := by decide
      have hr := rle_eq (0x20 : Byte) rlePayloadMakeOverflow Int64Slice.empty (by decide)
      rw [e1] at hr
      dsimp only at hr
      rw [e2] at hr
      dsimp only at hr
      rw [if_neg (by decide), if_neg (by decide)] at hr
      rw [henc, dispatch_rle U _ _ _ (by decide), hr]
      exact rleSized_panic_make _ _ _ _ (by decide) (by decide) (by decide)
    refine ⟨by decide, by decide, by decide, hp, ?_⟩
    rintro ⟨s, e, hs⟩
    rw [hp] at hs
    cases hs
  have hn63 : n < 2 ^ 63 := by
    rcases hfit with h | h
    · omega
    · exact h.1
  have hfit2 : n ≤ dst.cap ∨ 8 * n ≤ maxAlloc := by
    rcases hfit with h | h
    · exact Or.inr h
    · exact Or.inl h.2
  have hzf := ZigZagEncode_lt f hf.1 hf.2
  have hzd := ZigZagEncode_lt d hd.1 hd.2
  have h8 : 8 ≤ (putUint64 (ZigZagEncode f) ++ putUvarint (ZigZagEncode d) ++
      putUvarint (n - 1)).length := by
    simp only [List.length_append, putUint64_length]; omega
  have hdrop : (putUint64 (ZigZagEncode f) ++ putUvarint (ZigZagEncode d) ++
      putUvarint (n - 1)).drop 8 = putUvarint (ZigZagEncode d) ++ putUvarint (n - 1) := by
    rw [List.append_assoc]
    exact List.drop_left' (putUint64_length _)
  have hv1 : Uvarint (putUvarint (ZigZagEncode d) ++ putUvarint (n - 1)) =
      (ZigZagEncode d, ((putUvarint (ZigZagEncode d)).length : Int)) :=
    Uvarint_putUvarint _ hzd _
  have hdrop2 : (putUint64 (ZigZagEncode f) ++ putUvarint (ZigZagEncode d) ++
      putUvarint (n - 1)).drop (8 + (putUvarint (ZigZagEncode d)).length) =
        putUvarint (n - 1) := by
    apply List.drop_left'
    simp only [List.length_append, putUint64_length]
  have hv2 : Uvarint (putUvarint (n - 1)) = (n - 1, ((putUvarint (n - 1)).length : Int)) := by
    have := Uvarint_putUvarint (n - 1) (by omega) []
    rwa [List.append_nil] at this
  have hl1 : 0 < (putUvarint (ZigZagEncode d)).length := putUvarintLoop_length_pos _ _
  have hl2 : 0 < (putUvarint (n - 1)).length := putUvarintLoop_length_pos _ _
  have hw : wordAt (putUint64 (ZigZagEncode f) ++ putUvarint (ZigZagEncode d) ++
      putUvarint (n - 1)) 0 = ZigZagEncode f := by
    rw [List.append_assoc]
    exact wordAt_zero_putUint64 _ hzf _
  have hcount : (n - 1 + 1) % 2 ^ 64 = n := by
    rw [Nat.mod_eq_of_lt (by omega)]; omega
  unfold encodeRLE
  rw [dispatch_rle U _ _ dst (by decide), rle_eq _ _ dst h8, hdrop, hv1]
  dsimp only
  rw [Int.toNat_ofNat, hdrop2, hv2]
  dsimp only
  rw [if_neg (by omega), if_neg (by omega), hw, hcount,
    ZigZagDecode_ZigZagEncode f hf.1 hf.2, ZigZagDecode_ZigZagEncode d hd.1 hd.2]
  obtain ⟨s, hs⟩ := rleSized_of_fits dst f d n hn63 hfit2
  have he := (rleSized_ret _ _ _ _ _ _ hf hs).2
  refine ⟨s, hs, he, by rw [he]; simp, ?_⟩
  intro hd0 hn5
  rw [he, hd0, hn5]
  simp only [Int.mul_zero, Int.add_zero, wrap64_of_range f hf.1 hf.2]
  rfl

/-- Witness of C17 at `f = i64::MAX`, `d = -3`, `n = 300` (a two-byte
count field). -/
theorem C17_rle_round_trip_witness :
    (IsInt64 9223372036854775807 ∧ IsInt64 (-3) ∧ 1 ≤ 300 ∧
      (8 * 300 ≤ maxAlloc ∨ (300 < 2 ^ 63 ∧ 300 ≤ Int64Slice.cap ⟨[], [], false⟩))) ∧
    ∃ s, IntegerBatchDecodeAll lenientUnpacker (encodeRLE 9223372036854775807 (-3) 300)
        ⟨[], [], false⟩ = Outcome.ret s none ∧
      s.elems = (List.range 300).map
        (fun k : Nat => wrap64 (9223372036854775807 + (k : Int) * (-3))) ∧
      s.elems.length = 300 ∧
      ((-3 : Int) = 0 → 300 = 5 →
        s.elems = [9223372036854775807, 9223372036854775807, 9223372036854775807,
          9223372036854775807, 9223372036854775807]) :=
  ⟨⟨by decide, by decide, by decide, Or.inl (by decide)⟩,
    (C17_rle_round_trip lenientUnpacker 9223372036854775807 (-3) 300 ⟨[], [], false⟩
      (by decide) (by decide) (by decide) (Or.inl (by decide))).1⟩

/-- C18, the failing input. The Run-Length block with first value 0, delta 0 and
count field `2^63 - 1` (header `0x20`, eight zero bytes, the varint `00`, the
varint `ff ff ff ff ff ff ff ff 7f`) makes the decode panic, for every unpacker
and every destination whose capacity fits an `int`: `count` is `2^63`,
`int(count)` is negative, and `dst[:count]` is beyond the capacity.  With the
count field `2^62` the decode into an empty destination panics in
`make([]int64, count)`.  In general a Run-Length block panics exactly when both
varints are well formed and the incremented count field is `2^63` or more, or
exceeds both the capacity of the destination and the length that `make` accepts;
the Raw and Invalid handlers and the empty buffer always return. -/
theorem C18_never_faults_failing_input :
    (∀ (U : Unpacker) (dst : Int64Slice), dst.cap < 2 ^ 63 →
      IntegerBatchDecodeAll U ((0x20 : Byte) :: rlePayloadIntOverflow) dst =
        Outcome.panic "slice bounds out of range") ∧
    (∀ U : Unpacker,
      IntegerBatchDecodeAll U ((0x20 : Byte) :: rlePayloadMakeOverflow) Int64Slice.empty =
        Outcome.panic "makeslice: len out of range") ∧
    (∀ (U : Unpacker) (h : Byte) (p : List Byte) (dst : Int64Slice),
      h.val >>> 4 = 2 → dst.cap < 2 ^ 63 →
      ((IntegerBatchDecodeAll U (h :: p) dst).result = none ↔
        (8 ≤ p.length ∧ 0 < (Uvarint (p.drop 8)).2 ∧
          0 < (Uvarint (p.drop (8 + (Uvarint (p.drop 8)).2.toNat))).2 ∧
          (2 ^ 63 ≤ ((Uvarint (p.drop (8 + (Uvarint (p.drop 8)).2.toNat))).1 + 1) % 2 ^ 64 ∨
            (dst.cap < ((Uvarint (p.drop (8 + (Uvarint (p.drop 8)).2.toNat))).1 + 1) % 2 ^ 64 ∧
              maxAlloc <
                8 * (((Uvarint (p.drop (8 + (Uvarint (p.drop 8)).2.toNat))).1 + 1) % 2 ^ 64)))))) ∧
    (∀ (U : Unpacker) (b : List Byte) (dst : Int64Slice),
      (b = [] ∨ ∃ h p, b = h :: p ∧ (h.val >>> 4 = 0 ∨ 3 ≤ h.val >>> 4)) →
      ∃ s e, IntegerBatchDecodeAll U b dst = Outcome.ret s e) := by
  have hrle : ∀ (U : Unpacker) (h : Byte) (p : List Byte) (dst : Int64Slice),
      h.val >>> 4 = 2 → dst.cap < 2 ^ 63 →
      ((IntegerBatchDecodeAll U (h :: p) dst).result = none ↔
        (8 ≤ p.length ∧ 0 < (Uvarint (p.drop 8)).2 ∧
          0 < (Uvarint (p.drop (8 + (Uvarint (p.drop 8)).2.toNat))).2 ∧
          (2 ^ 63 ≤ ((Uvarint (p.drop (8 + (Uvarint (p.drop 8)).2.toNat))).1 + 1) % 2 ^ 64 ∨
            (dst.cap < ((Uvarint (p.drop (8 + (Uvarint (p.drop 8)).2.toNat))).1 + 1) % 2 ^ 64 ∧
              maxAlloc <
                8 * (((Uvarint (p.drop (8 + (Uvarint (p.drop 8)).2.toNat))).1 + 1) % 2 ^ 64))))) := by
    intro U h p dst hn hcap
    rw [dispatch_rle U h p dst hn]
    by_cases h8 : p.length < 8
    · rw [rle_short h p dst h8]
      simp only [Outcome.result]
      constructor
      · intro hc; cases hc
      · rintro ⟨hc, _⟩; omega
    · rw [rle_eq h p dst (by omega)]
      by_cases hv1 : (Uvarint (p.drop 8)).2 ≤ 0
      · rw [if_pos hv1]
        simp only [Outcome.result]
        constructor
        · intro hc; cases hc
        · rintro ⟨_, hc, _⟩; omega
      · rw [if_neg hv1]
        by_cases hv2 : (Uvarint (p.drop (8 + (Uvarint (p.drop 8)).2.toNat))).2 ≤ 0
        · rw [if_pos hv2]
          simp only [Outcome.result]
          constructor
          · intro hc; cases hc
          · rintro ⟨_, _, hc, _⟩; omega
        · rw [if_neg hv2,
            rleSized_result dst _ _ _ hcap (Nat.mod_lt _ (by decide)) (isInt64_first p)]
          generalize ((Uvarint (p.drop (8 + (Uvarint (p.drop 8)).2.toNat))).1 + 1) % 2 ^ 64 =
            count
          by_cases hcond : count < 2 ^ 63 ∧ (count ≤ dst.cap ∨ 8 * count ≤ maxAlloc)
          · rw [if_pos hcond]
            constructor
            · intro hc; cases hc
            · rintro ⟨_, _, _, hc⟩
              omega
          · rw [if_neg hcond]
            constructor
            · intro _
              refine ⟨by omega, by omega, by omega, ?_⟩
              by_cases hlt : count < 2 ^ 63
              · right
                constructor
                · by_contra hle
                  exact hcond ⟨hlt, Or.inl (by omega)⟩
                · by_contra hle
                  exact hcond ⟨hlt, Or.inr (by omega)⟩
              · left; omega
            · intro _; rfl
  refine ⟨?_, ?_, hrle, ?_⟩
  · intro U dst hcap
    have e1 : Uvarint (rlePayloadIntOverflow.drop 8) = (0, 1) := by decide
    have e2 : Uvarint (rlePayloadIntOverflow.drop (8 + (1 : Int).toNat)) =
        (2 ^ 63 - 1, 9) := by decide
    have hr := rle_eq (0x20 : Byte) rlePayloadIntOverflow dst (by decide)
    rw [e1] at hr
    dsimp only at hr
    rw [e2] at hr
    dsimp only at hr
    rw [if_neg (by decide), if_neg (by decide)] at hr
    rw [dispatch_rle U _ _ dst (by decide), hr]
    exact rleSized_panic dst _ _ _ hcap (by decide) (by decide)
  · intro U
    have e1 : Uvarint (rlePayloadMakeOverflow.drop 8) = (0, 1) := by decide
    have e2 : Uvarint (rlePayloadMakeOverflow.drop (8 + (1 : Int).toNat)) =
        (2 ^ 62, 9) := by decide
    have hr := rle_eq (0x20 : Byte) rlePayloadMakeOverflow Int64Slice.empty (by decide)
    rw [e1] at hr
    dsimp only at hr
    rw [e2] at hr
    dsimp only at hr
    rw [if_neg (by decide), if_neg (by decide)] at hr
    rw [dispatch_rle U _ _ _ (by decide), hr]
    exact rleSized_panic_make _ _ _ _ (by decide) (by decide) (by decide)
  · intro U b dst hb
    rcases hb with rfl | ⟨h, p, rfl, hn | hn⟩
    · exact ⟨_, _, rfl⟩
    · rw [dispatch_uncompressed U h p dst hn, uncompressed_eq]
      split
      · exact ⟨_, _, rfl⟩
      · exact ⟨_, _, rfl⟩
    · rw [dispatch_invalid U h p dst hn, invalid_eq]
      exact ⟨_, _, rfl⟩

/-- Witness of C18's failing input with a destination of capacity 3. -/
theorem C18_never_faults_failing_input_witness :
    Int64Slice.cap ⟨[1, 2], [3], false⟩ < 2 ^ 63 ∧
    IntegerBatchDecodeAll lenientUnpacker ((0x20 : Byte) :: rlePayloadIntOverflow)
      ⟨[1, 2], [3], false⟩ = Outcome.panic "slice bounds out of range" :=
  ⟨by decide, C18_never_faults_failing_input.1 lenientUnpacker ⟨[1, 2], [3], false⟩
    (by decide)⟩

/-- C19. Run-Length fast path equals the general path: for a first value `f` and
a destination sized to any length, the `delta == 0` loop, which fills every
slot with `f`, leaves the same sequence as the general loop (`acc = f`, write
`acc`, `acc += delta`) run with `delta = 0`; the handler takes the fast path at
`delta = 0` and every element of its result is `f`, `[f, f, f, f, f]` for the
count field 4. -/
theorem C19_rle_fast_path (f : Int) (dst : Int64Slice) (hf : IsInt64 f) :
    rleFillLoop f dst.len 0 dst.elems = rleAccLoop 0 dst.len 0 f dst.elems ∧
    rleFill dst f 0 = dst.withElems (rleAccLoop 0 dst.len 0 f dst.elems) ∧
    (rleFill dst f 0).elems = List.replicate dst.len f ∧
    (∀ i, i < dst.len → (rleFill dst f 0).elems[i]? = some f) ∧
    (dst.len = 5 → (rleFill dst f 0).elems = [f, f, f, f, f]) := by
  have h1 : rleFillLoop f dst.len 0 dst.elems = List.replicate dst.len f := by
    rw [rleFillLoop_eq f dst.len 0 dst.elems (by simp [Int64Slice.len])]
    simp
  have h2 : rleAccLoop 0 dst.len 0 f dst.elems = List.replicate dst.len f := by
    rw [rleAccLoop_eq 0 dst.len 0 f dst.elems (by simp [Int64Slice.len]) hf]
    simp only [List.take_zero, List.nil_append, Int.mul_zero, Int.add_zero,
      wrap64_of_range f hf.1 hf.2]
    simp
  have h3 : rleFill dst f 0 = dst.withElems (rleFillLoop f dst.len 0 dst.elems) := by
    unfold rleFill
    rw [if_pos rfl]
  have h4 : (rleFill dst f 0).elems = List.replicate dst.len f := by
    rw [h3, h1]; rfl
  refine ⟨by rw [h1, h2], by rw [h3, h1, h2], h4, ?_, ?_⟩
  · intro i hi
    rw [h4]
    simp [List.getElem?_replicate, hi]
  · intro h5
    rw [h4, h5]
    rfl

/-- Witness of C19 on a destination of five stale elements. -/
theorem C19_rle_fast_path_witness :
    IsInt64 7 ∧
    (rleFillLoop 7 (Int64Slice.len ⟨[1, 2, 3, 4, 5], [6], false⟩) 0 [1, 2, 3, 4, 5] =
      rleAccLoop 0 (Int64Slice.len ⟨[1, 2, 3, 4, 5], [6], false⟩) 0 7 [1, 2, 3, 4, 5]) :=
  ⟨by decide, (C19_rle_fast_path 7 ⟨[1, 2, 3, 4, 5], [6], false⟩ (by decide)).1⟩

/-- C20. The low nibble of the header is ignored: two non-empty buffers that
differ only in bits 0-3 of byte 0 (same high nibble, same bytes after it) are
decoded, for every destination, to the very same outcome, sequence and error
text included; the handler is selected by the high nibble alone, 0 Raw,
1 Packed-Delta, 2 Run-Length, every other value Invalid. -/
theorem C20_low_nibble_ignored (U : Unpacker) (h h1 : Byte) (p : List Byte) (dst : Int64Slice)
    (hn : h.val >>> 4 = h1.val >>> 4) :
    IntegerBatchDecodeAll U (h :: p) dst = IntegerBatchDecodeAll U (h1 :: p) dst ∧
    (h.val >>> 4 = 0 →
      IntegerBatchDecodeAll U (h :: p) dst = integerBatchDecodeAllUncompressed (h :: p) dst) ∧
    (h.val >>> 4 = 1 →
      IntegerBatchDecodeAll U (h :: p) dst = integerBatchDecodeAllSimple U (h :: p) dst) ∧
    (h.val >>> 4 = 2 →
      IntegerBatchDecodeAll U (h :: p) dst = integerBatchDecodeAllRLE (h :: p) dst) ∧
    (3 ≤ h.val >>> 4 →
      IntegerBatchDecodeAll U (h :: p) dst = integerBatchDecodeAllInvalid (h :: p) dst) := by
  refine ⟨?_, dispatch_uncompressed U h p dst, dispatch_simple U h p dst,
    dispatch_rle U h p dst, dispatch_invalid U h p dst⟩
  rcases nibble_cases h with h0 | h0 | h0 | h0
  · rw [dispatch_uncompressed U h p dst h0, dispatch_uncompressed U h1 p dst (by omega)]
    exact uncompressed_header h h1 p dst
  · rw [dispatch_simple U h p dst h0, dispatch_simple U h1 p dst (by omega)]
    exact simple_header U h h1 p dst
  · rw [dispatch_rle U h p dst h0, dispatch_rle U h1 p dst (by omega)]
    exact rle_header h h1 p dst
  · rw [dispatch_invalid U h p dst h0, dispatch_invalid U h1 p dst (by omega), invalid_eq,
      invalid_eq, hn]

/-- Witness of C20 on the headers `0x20` and `0x2f` of a Run-Length block. -/
theorem C20_low_nibble_ignored_witness :
    (0x20 : Byte).val >>> 4 = (0x2f : Byte).val >>> 4 ∧
    IntegerBatchDecodeAll lenientUnpacker
        ((0x20 : Byte) :: (putUint64 (ZigZagEncode 10) ++ [(5 : Byte), 2])) ⟨[], [], false⟩ =
      IntegerBatchDecodeAll lenientUnpacker
        ((0x2f : Byte) :: (putUint64 (ZigZagEncode 10) ++ [(5 : Byte), 2])) ⟨[], [], false⟩ :=
  ⟨by decide, (C20_low_nibble_ignored lenientUnpacker (0x20 : Byte) (0x2f : Byte) _ _
    (by decide)).1⟩

end Tsm1
